import Mathlib

/-!
Verification of the XcelSQL core against its natural-language specification.

Text is modelled as `List Char`.  The Python modules under scrutiny are
`xcelsql/core/sql_engine.py` (query validation and parameter substitution),
`xcelsql/utils/excel_utils.py` (the sheet-to-table identifier mapper),
`xcelsql/core/expr_eval.py` (the restricted expression interpreter) and
`xcelsql/cli/repl.py` (the session identifier-alias rewriter).  Each
definition in the first half of this file is a direct transcription of the
corresponding Python function; definitions whose name contains `Spec` are
instead written from the specification's words, for comparison.
-/

/-! ## Character classes -/

/-- Whitespace as stripped by Python `str.lstrip` (ASCII fragment). -/
def pySpace (c : Char) : Bool :=
  c = ' ' || c = '\t' || c = '\n' || c = '\x0d' || c = '\x0b' || c = '\x0c'

/-- Word characters of the regex class `\w` (ASCII): letters, digits, underscore. -/
def isWordC (c : Char) : Bool :=
  c.isAlphanum || c = '_'

/-- Python `str.isidentifier` (ASCII fragment): a letter or underscore followed
by letters, digits or underscores. -/
def isPyIdent (k : List Char) : Bool :=
  match k with
  | [] => false
  | c :: rest => (c.isAlpha || c = '_') && rest.all (fun d => d.isAlphanum || d = '_')

/-! ## ParameterSubstitutor: `sql_engine.apply_params`

`apply_params` iterates over the parameter dictionary in insertion order and
for each valid-identifier key runs `re.sub(rf':<k>\b', escaped_value, sql)`.
The replacement argument of `re.sub` is a regex replacement template, so its
backslash escapes are interpreted (`\n` becomes a newline, `\d` is an error).
-/

/-- SQL escaping used by `apply_params`: double every single quote
(`v.replace("'", "''")`). -/
def doubleQ : List Char → List Char
  | [] => []
  | '\'' :: rest => '\'' :: '\'' :: doubleQ rest
  | c :: rest => c :: doubleQ rest

/-- The escaped value spliced in for a parameter: `NULL` for the null marker,
otherwise the value wrapped in single quotes with embedded quotes doubled. -/
def escVal : Option (List Char) → List Char
  | none => "NULL".toList
  | some v => '\'' :: (doubleQ v ++ ['\''])

/-- Python `re.sub` replacement-template processing: `\\`, `\a`, `\b`, `\f`,
`\n`, `\r`, `\t`, `\v` and `\0` translate to single characters, `\1`-`\9` and
`\g` are group references (the pattern `:<name>\b` has no groups, so they
error), any other escaped ASCII letter is a bad escape (an error), any other
escaped character is kept verbatim together with its backslash. -/
def procTemplate : List Char → Except (List Char) (List Char)
  | [] => .ok []
  | c :: rest =>
    if c = '\\' then
      match rest with
      | [] => .error "bad escape (end of pattern)".toList
      | d :: rest2 =>
        if d = '\\' then (procTemplate rest2).map (fun l => '\\' :: l)
        else if d = 'a' then (procTemplate rest2).map (fun l => '\x07' :: l)
        else if d = 'b' then (procTemplate rest2).map (fun l => '\x08' :: l)
        else if d = 'f' then (procTemplate rest2).map (fun l => '\x0c' :: l)
        else if d = 'n' then (procTemplate rest2).map (fun l => '\n' :: l)
        else if d = 'r' then (procTemplate rest2).map (fun l => '\x0d' :: l)
        else if d = 't' then (procTemplate rest2).map (fun l => '\t' :: l)
        else if d = 'v' then (procTemplate rest2).map (fun l => '\x0b' :: l)
        else if d = '0' then (procTemplate rest2).map (fun l => '\x00' :: l)
        else if d.isDigit then .error "invalid group reference".toList
        else if d = 'g' then .error "invalid group reference".toList
        else if d.isAlpha then .error ("bad escape \\".toList ++ [d])
        else (procTemplate rest2).map (fun l => '\\' :: d :: l)
    else (procTemplate rest).map (fun l => c :: l)

/-- Word-boundary check after a parameter name: the `\b` in `:{k}\b` holds
when the text ends or the next character is not a word character. -/
def boundaryOk : List Char → Bool
  | [] => true
  | c :: _ => !(isWordC c)

/-- One `re.sub(rf':<k>\b', tmpl, s)` pass, step-counted: replace every
non-overlapping occurrence of `:<k>` that sits on a word boundary,
scanning left to right.  Every step consumes at least one character, so a
step budget equal to the input length never runs out. -/
def subParamF (k : List Char) (tmpl : List Char) : Nat → List Char → List Char
  | 0, l => l
  | _ + 1, [] => []
  | fuel + 1, ':' :: rest =>
    if k.isPrefixOf rest && boundaryOk (rest.drop k.length) && k ≠ [] then
      tmpl ++ subParamF k tmpl fuel (rest.drop k.length)
    else
      ':' :: subParamF k tmpl fuel rest
  | fuel + 1, c :: rest => c :: subParamF k tmpl fuel rest

/-- One `re.sub(rf':<k>\b', tmpl, s)` pass over the whole text. -/
def subParam (k : List Char) (tmpl : List Char) (s : List Char) : List Char :=
  subParamF k tmpl s.length s

/-- The loop body of `apply_params`: process parameters in order, skipping
keys that are not valid identifiers; for each remaining key substitute the
(template-processed) escaped value.  A bad template raises, aborting. -/
def applyParamsGo : List Char → List (List Char × Option (List Char)) → Except (List Char) (List Char)
  | s, [] => .ok s
  | s, (k, v) :: rest =>
    if isPyIdent k then
      match procTemplate (escVal v) with
      | .error e => .error e
      | .ok tmpl => applyParamsGo (subParam k tmpl s) rest
    else
      applyParamsGo s rest

/-- `apply_params(sql, params)`: `None` or an empty dictionary returns the
text unchanged, otherwise parameters are substituted sequentially. -/
def applyParams (s : List Char) : Option (List (List Char × Option (List Char))) → Except (List Char) (List Char)
  | none => .ok s
  | some [] => .ok s
  | some ps => applyParamsGo s ps

/-- Modelled from the spec (§4.4/§4.3 of the claim): a single combined
substitution pass computed from the original text, keyed by name — at each
`:` the first parameter whose valid-identifier name matches on a word
boundary is replaced; replacement output is never rescanned. -/
def subAllSpecF (ps : List (List Char × Option (List Char))) : Nat → List Char → List Char
  | 0, l => l
  | _ + 1, [] => []
  | fuel + 1, ':' :: rest =>
    match ps.find? (fun p => isPyIdent p.1 && p.1.isPrefixOf rest && boundaryOk (rest.drop p.1.length)) with
    | some (k, v) => escVal v ++ subAllSpecF ps fuel (rest.drop k.length)
    | none => ':' :: subAllSpecF ps fuel rest
  | fuel + 1, c :: rest => c :: subAllSpecF ps fuel rest

/-- The combined pass over the whole text (step budget as in `subParamF`). -/
def subAllSpec (ps : List (List Char × Option (List Char))) (s : List Char) : List Char :=
  subAllSpecF ps s.length s

/-! ## QueryValidator: `sql_engine.validate_query`

The validator strips leading whitespace, requires the text to start with
`SELECT` (via `str.startswith` on the upper-cased text), masks single-quoted
literals with `re.sub(r"'[^']*'", "''", ...)` — which pairs quotes
left-to-right, replacing each `'...'` span by `''` and leaving a trailing
unpaired quote and its tail untouched — and then scans the masked text for
the first whole-word, case-insensitive match of a forbidden keyword.
Finally it extracts `{...}` placeholders from the original text.
-/

/-- The forbidden keyword set `FORBIDDEN_SQL_TOKENS` from `utils/constants.py`. -/
def FORBIDDEN : List (List Char) :=
  ["CREATE".toList, "ALTER".toList, "DROP".toList, "TRUNCATE".toList,
   "DELETE".toList, "UPDATE".toList, "INSERT".toList, "MERGE".toList,
   "GRANT".toList, "REVOKE".toList, "COMMIT".toList, "ROLLBACK".toList,
   "SAVEPOINT".toList, "CONNECT".toList, "SET".toList, "PRAGMA".toList,
   "COPY".toList, "VACUUM".toList, "ANALYZE".toList, "ATTACH".toList,
   "DETACH".toList, "BEGIN".toList, "END".toList, "TRANSACTION".toList]

mutual

/-- Literal masking of `re.sub(r"'[^']*'", "''", s)`, outside-literal state:
copy characters until a quote opens a candidate span. -/
def maskAux : List Char → List Char
  | [] => []
  | '\'' :: rest => maskIn rest []
  | c :: rest => c :: maskAux rest

/-- Literal masking, inside a candidate span: buffer the content; a closing
quote collapses the whole span to `''`, while end-of-input (an unpaired
quote) restores the span verbatim. -/
def maskIn : List Char → List Char → List Char
  | [], buf => '\'' :: buf.reverse
  | '\'' :: rest, _ => '\'' :: '\'' :: maskAux rest
  | c :: rest, buf => maskIn rest (c :: buf)

end

mutual

/-- Placeholder extraction of `re.finditer(r'\x7b([^\x7d]+)\x7d', query)`,
outside state. -/
def refsAux : List Char → List (List Char)
  | [] => []
  | '\x7b' :: rest => refsIn rest []
  | _ :: rest => refsAux rest

/-- Placeholder extraction, inside a brace: buffer until the closing brace;
an empty body is not a match (the pattern requires one or more characters),
and an unterminated brace matches nothing. -/
def refsIn : List Char → List Char → List (List Char)
  | [], _ => []
  | '\x7d' :: rest, buf => if buf = [] then refsAux rest else buf.reverse :: refsAux rest
  | c :: rest, buf => refsIn rest (c :: buf)

end

/-- Whole-word match of `tok` at the head of the text, case-insensitively
(`tok` is stored upper-case); the trailing `\b` requires the text to end or
continue with a non-word character.  The leading `\b` is checked by the
caller. -/
def hereMatch : List Char → List Char → Bool
  | [], [] => true
  | [], c :: _ => !(isWordC c)
  | _ :: _, [] => false
  | t :: ts, c :: rest => (c.toUpper = t) && hereMatch ts rest

/-- First match of `FORBIDDEN_SQL_REGEX.finditer`: scan positions left to
right (tracking whether the previous character was a word character, for the
leading `\b`), and at each boundary position try the alternatives in order. -/
def findTok : Bool → List Char → Option (List Char)
  | _, [] => none
  | prevW, c :: rest =>
    match (if prevW then none else FORBIDDEN.find? (fun t => hereMatch t (c :: rest))) with
    | some t => some t
    | none => findTok (isWordC c) rest

/-- The `stripped.upper().startswith("SELECT")` test. -/
def selectPrefix (s : List Char) : Bool :=
  List.isPrefixOf "SELECT".toList (s.map Char.toUpper)

/-- Validation errors of `validate_query` (all raised as `ValueError`). -/
inductive VError where
  | notASelect
  | forbiddenToken (t : List Char)
  | noPlaceholders
  | unknownSheet (s : List Char)
deriving DecidableEq

/-- Transcription of `validate_query(query, available_sheets, strict)`. -/
def validateQuery (query : List Char) (avail : List (List Char)) (strict : Bool) : Except VError Unit :=
  if query = [] then .ok ()
  else
    let stripped := query.dropWhile pySpace
    if !(selectPrefix stripped) then .error .notASelect
    else
      match findTok false (maskAux stripped) with
      | some t => .error (.forbiddenToken t)
      | none =>
        let refs := refsAux query
        if refs = [] && strict then .error .noPlaceholders
        else
          match refs.find? (fun r => !(avail.contains r)) with
          | some r => .error (.unknownSheet r)
          | none => .ok ()

/-! ## Specification-side literal tracking

Two labellings of a query assign each character an inside-a-string-literal
flag.  `labSqlOut` follows the claim's words: a literal is text enclosed in
single quotes with `''` honoured as an escaped quote, and text after an
unterminated opening quote is not enclosed, hence not a literal.  `labOut`
is the amended convention: quotes pair up left to right, each complete
`'...'` span is a literal (a doubled quote reads as two adjacent
delimiters, not an escape). -/

mutual

/-- Pairing-convention labelling, outside state. -/
def labOut : List Char → List (Char × Bool)
  | [] => []
  | '\'' :: rest => labIn rest []
  | c :: rest => (c, false) :: labOut rest

/-- Pairing-convention labelling, inside a span opened by a quote: content
of a completed span is inside a literal; after an unpaired trailing quote
nothing is enclosed. -/
def labIn : List Char → List Char → List (Char × Bool)
  | [], buf => ('\'', false) :: buf.reverse.map (fun c => (c, false))
  | '\'' :: rest, buf => ('\'', false) :: buf.reverse.map (fun c => (c, true)) ++ ('\'', false) :: labOut rest
  | c :: rest, buf => labIn rest (c :: buf)

end

mutual

/-- SQL-convention labelling (claim side), outside state. -/
def labSqlOut : List Char → List (Char × Bool)
  | [] => []
  | '\'' :: rest => labSqlIn rest []
  | c :: rest => (c, false) :: labSqlOut rest

/-- SQL-convention labelling, inside a literal: a doubled quote is an
escaped quote belonging to the literal's content; a lone quote closes it;
if input ends before the literal closes, the text was never enclosed, so
none of it is a literal. -/
def labSqlIn : List Char → List Char → List (Char × Bool)
  | [], buf => ('\'', false) :: buf.reverse.map (fun c => (c, false))
  | '\'' :: '\'' :: rest, buf => labSqlIn rest ('\'' :: '\'' :: buf)
  | '\'' :: rest, buf => ('\'', false) :: buf.reverse.map (fun c => (c, true)) ++ ('\'', false) :: labSqlOut rest
  | c :: rest, buf => labSqlIn rest (c :: buf)

end

/-- Whole-word match over labelled text: as `hereMatch`, additionally
requiring every matched position to lie outside a literal. -/
def hereMatchL : List Char → List (Char × Bool) → Bool
  | [], [] => true
  | [], (c, _) :: _ => !(isWordC c)
  | _ :: _, [] => false
  | t :: ts, (c, ins) :: rest => (!ins) && (c.toUpper = t) && hereMatchL ts rest

/-- Occurrence scan over plain text: does `tok` occur as a whole word
(case-insensitively) anywhere, given whether the character before the
current position is a word character? -/
def wwScan (tok : List Char) : Bool → List Char → Bool
  | _, [] => false
  | prevW, c :: rest => (!prevW && hereMatch tok (c :: rest)) || wwScan tok (isWordC c) rest

/-- Occurrence scan over labelled text: does `tok` occur as a whole word,
case-insensitively, entirely outside string literals? -/
def wwScanL (tok : List Char) : Bool → List (Char × Bool) → Bool
  | _, [] => false
  | prevW, (c, ins) :: rest => (!prevW && hereMatchL tok ((c, ins) :: rest)) || wwScanL tok (isWordC c) rest

/-- Claim-side reading of the forbidden-token condition: some forbidden
keyword occurs as a whole word outside string literals under the SQL
(`''`-escape, enclosed) convention. -/
def forbiddenOutsideSql (s : List Char) : Bool :=
  FORBIDDEN.any (fun t => wwScanL t false (labSqlOut s))

/-- Amended reading: some forbidden keyword occurs as a whole word outside
string literals under the left-to-right quote-pairing convention. -/
def forbiddenOutsidePair (s : List Char) : Bool :=
  FORBIDDEN.any (fun t => wwScanL t false (labOut s))

/-- First whitespace-delimited word of the text, upper-cased (the claim's
"first keyword", compared case-insensitively). -/
def firstWord (s : List Char) : List Char :=
  (s.takeWhile (fun c => !(pySpace c))).map Char.toUpper

/-! ## IdentifierMapper: `excel_utils.SheetTableMapper`

`add_sheet` lower-cases the sheet name, replaces every character outside
`[a-zA-Z0-9_]` with an underscore (one underscore per character), handles
the empty result with a `sheet_<counter>` synthetic name, prefixes `s_`
when the result does not start with a letter, and then appends `_1`, `_2`,
… while the candidate is already a key of the reverse map.
-/

/-- Characters kept by the sanitizer (the regex class `[a-zA-Z0-9_]`). -/
def isSafeC (c : Char) : Bool :=
  c.isAlphanum || c = '_'

/-- The sanitizer `re.sub(r'[^a-zA-Z0-9_]', '_', sheet_name.lower())`:
lower-case, then each disallowed character becomes one underscore. -/
def sanitizeName (name : List Char) : List Char :=
  (name.map Char.toLower).map (fun c => if isSafeC c then c else '_')

/-- Candidate table name before duplicate avoidance, together with the
updated synthetic-name counter. -/
def candidateName (counter : Nat) (name : List Char) : List Char × Nat :=
  let safe := sanitizeName name
  if safe = [] then ("sheet_".toList ++ (Nat.repr counter).toList, counter + 1)
  else if !(match safe with | c :: _ => c.isAlpha | [] => false) then
    ("s_".toList ++ safe, counter)
  else (safe, counter)

/-- The duplicate-avoidance loop, fuelled: try `base_1`, `base_2`, … while
the candidate is taken.  With fuel `taken.length + 1` the loop provably
finds a free candidate before the fuel runs out. -/
def dedupAux (base : List Char) (taken : List (List Char)) : Nat → Nat → List Char
  | 0, s => base ++ '_' :: (Nat.repr s).toList
  | fuel + 1, s =>
    let cand := base ++ '_' :: (Nat.repr s).toList
    if taken.contains cand then dedupAux base taken fuel (s + 1) else cand

/-- Duplicate avoidance of `add_sheet`: keep the candidate if it is not yet
a reverse-map key, else append the first free numeric suffix. -/
def dedupName (base : List Char) (taken : List (List Char)) : List Char :=
  if taken.contains base then dedupAux base taken (taken.length + 1) 1 else base

/-- The mapper's state: forward map, reverse map and synthetic counter. -/
structure MapperState where
  nameMap : List (List Char × List Char)
  revMap : List (List Char × List Char)
  counter : Nat
deriving DecidableEq

/-- The freshly-constructed mapper. -/
def emptyMapper : MapperState := ⟨[], [], 0⟩

/-- Transcription of `SheetTableMapper.add_sheet`. -/
def addSheet (st : MapperState) (name : List Char) : List Char × MapperState :=
  match st.nameMap.lookup name with
  | some s => (s, st)
  | none =>
    let cc := candidateName st.counter name
    let safe := dedupName cc.1 (st.revMap.map (fun p => p.1))
    (safe, ⟨st.nameMap ++ [(name, safe)], st.revMap ++ [(safe, name)], cc.2⟩)

/-- Register a whole list of sheet names in order, returning the final
state. -/
def runMapper (names : List (List Char)) : MapperState :=
  names.foldl (fun st n => (addSheet st n).2) emptyMapper

/-- Register a whole list of sheet names in order, returning the assigned
identifiers. -/
def runMapperIds (names : List (List Char)) : List (List Char) :=
  (names.foldl (fun acc n =>
    let r := addSheet acc.2 n
    (acc.1 ++ [r.1], r.2)) (([] : List (List Char)), emptyMapper)).1

mutual

/-- Run-collapsing sanitizer from the claim's words: every run of
disallowed characters becomes a single underscore (keeping state while
inside a run). -/
def collapseRuns : List Char → List Char
  | [] => []
  | c :: rest => if isSafeC c then c :: collapseRuns rest else '_' :: collapseSkip rest

/-- Run-collapsing sanitizer, inside a run of disallowed characters. -/
def collapseSkip : List Char → List Char
  | [] => []
  | c :: rest => if isSafeC c then c :: collapseRuns rest else collapseSkip rest

end

/-- Modelled from the claim (C4): the candidate produced by the claimed
algorithm — lower-case, collapse runs of disallowed characters to a single
underscore, synthesize `sheet_<counter>` when empty, prefix `s_` when not
letter-initial. -/
def candidateSpecRuns (counter : Nat) (name : List Char) : List Char × Nat :=
  let safe := collapseRuns (name.map Char.toLower)
  if safe = [] then ("sheet_".toList ++ (Nat.repr counter).toList, counter + 1)
  else if !(match safe with | c :: _ => c.isAlpha | [] => false) then
    ("s_".toList ++ safe, counter)
  else (safe, counter)

/-- Safe-identifier shape `^[A-Za-z_][A-Za-z0-9_]*$` (the mapper invariant
claimed for generated identifiers). -/
def isSafeIdent (s : List Char) : Bool :=
  match s with
  | [] => false
  | c :: rest => (c.isAlpha || c = '_') && rest.all isSafeC

/-- The mapper-state invariant claimed by the spec: the reverse map is the
exact pairwise inverse of the forward map, original names and generated
identifiers are each pairwise distinct, and every generated identifier
matches `^[A-Za-z_][A-Za-z0-9_]*$` and contains no upper-case letter (so
case-insensitive comparison of identifiers coincides with equality). -/
def mapperInv (st : MapperState) : Prop :=
  st.revMap = st.nameMap.map (fun p => (p.2, p.1))
  ∧ (st.nameMap.map (fun p => p.1)).Nodup
  ∧ (st.nameMap.map (fun p => p.2)).Nodup
  ∧ ∀ p ∈ st.nameMap, isSafeIdent p.2 = true ∧ p.2.all (fun c => !c.isUpper) = true

/-! ## ExpressionInterpreter: `expr_eval.SafeEval`

Values are a closed universe mirroring the Python values the interpreter
manipulates: `None`, booleans, integers, floats (modelled as rationals),
strings, lists, dicts and registered callables (identified by registry
name; their behaviour is a parameter `FnImpl` of the evaluator, since the
registered functions live outside this component).  The global
`_ALLOW_EVAL_FALLBACK` flag keeps its module default `False` throughout
(no claim exercises the fallback).  Booleans participate in arithmetic as
0/1, as in Python.
-/

/-- The value universe of the restricted interpreter. -/
inductive Val where
  | vnone
  | vbool (b : Bool)
  | vint (n : Int)
  | vrat (q : Rat)
  | vstr (s : List Char)
  | vlist (xs : List Val)
  | vdict (ps : List (Val × Val))
  | vfn (name : List Char)

/-- Python type name of a value, for error messages. -/
def typeName : Val → List Char
  | .vnone => "NoneType".toList
  | .vbool _ => "bool".toList
  | .vint _ => "int".toList
  | .vrat _ => "float".toList
  | .vstr _ => "str".toList
  | .vlist _ => "list".toList
  | .vdict _ => "dict".toList
  | .vfn _ => "function".toList

/-- A value seen as a Python `int` where ints are expected (bools count). -/
def isIntLike : Val → Option Int
  | .vbool b => some (if b then 1 else 0)
  | .vint n => some n
  | _ => none

/-- A value seen as a number (bools and ints promote to the rational model
of floats). -/
def toRatQ : Val → Option Rat
  | .vbool b => some (if b then 1 else 0)
  | .vint n => some (n : Rat)
  | .vrat q => some q
  | _ => none

/-- Python truthiness. -/
def truthy : Val → Bool
  | .vnone => false
  | .vbool b => b
  | .vint n => n ≠ 0
  | .vrat q => q ≠ 0
  | .vstr s => !s.isEmpty
  | .vlist xs => !xs.isEmpty
  | .vdict ps => !ps.isEmpty
  | .vfn _ => true

mutual

/-- Python `==` over the value universe (`operator.eq`): numbers compare by
value across `bool`/`int`/`float`, strings, lists and dicts compare
structurally, functions by identity (registry name), mixed kinds are
unequal.  Total, never raises. -/
def pyEq : Val → Val → Bool
  | a, b =>
    match toRatQ a, toRatQ b with
    | some x, some y => x = y
    | _, _ =>
      match a, b with
      | .vnone, .vnone => true
      | .vstr s, .vstr t => s = t
      | .vlist xs, .vlist ys => pyEqList xs ys
      | .vdict ps, .vdict qs => pyEqPairs ps qs
      | .vfn n, .vfn m => n = m
      | _, _ => false

/-- Elementwise list equality. -/
def pyEqList : List Val → List Val → Bool
  | [], [] => true
  | x :: xs, y :: ys => pyEq x y && pyEqList xs ys
  | _, _ => false

/-- Pairwise dict equality (dict entries are compared positionally in this
model; the interpreter itself builds dicts by position). -/
def pyEqPairs : List (Val × Val) → List (Val × Val) → Bool
  | [], [] => true
  | p :: ps, q :: qs => pyEq p.1 q.1 && pyEq p.2 q.2 && pyEqPairs ps qs
  | _, _ => false

end

mutual

/-- Python `<` (`operator.lt`): numbers, strings (lexicographic), lists
(lexicographic via `==`/`<`); any other combination raises `TypeError`. -/
def pyLt : Val → Val → Except (List Char) Bool
  | a, b =>
    match toRatQ a, toRatQ b with
    | some x, some y => .ok (decide (x < y))
    | _, _ =>
      match a, b with
      | .vstr s, .vstr t => .ok (decide (s < t))
      | .vlist xs, .vlist ys => pyLtList xs ys
      | _, _ =>
        .error ("'<' not supported between instances of '".toList ++ typeName a ++
          "' and '".toList ++ typeName b ++ ['\''])

/-- Lexicographic list comparison: skip equal prefixes, compare the first
differing elements, a proper prefix is smaller. -/
def pyLtList : List Val → List Val → Except (List Char) Bool
  | [], [] => .ok false
  | [], _ :: _ => .ok true
  | _ :: _, [] => .ok false
  | x :: xs, y :: ys => if pyEq x y then pyLtList xs ys else pyLt x y

end

mutual

/-- Python `<=` (`operator.le`), analogous to `pyLt`. -/
def pyLe : Val → Val → Except (List Char) Bool
  | a, b =>
    match toRatQ a, toRatQ b with
    | some x, some y => .ok (decide (x ≤ y))
    | _, _ =>
      match a, b with
      | .vstr s, .vstr t => .ok (decide (s < t) || decide (s = t))
      | .vlist xs, .vlist ys => pyLeList xs ys
      | _, _ =>
        .error ("'<=' not supported between instances of '".toList ++ typeName a ++
          "' and '".toList ++ typeName b ++ ['\''])

/-- Lexicographic list comparison for `<=`. -/
def pyLeList : List Val → List Val → Except (List Char) Bool
  | [], _ => .ok true
  | _ :: _, [] => .ok false
  | x :: xs, y :: ys => if pyEq x y then pyLeList xs ys else pyLt x y

end

/-- Sequence replication (`s * n` for strings and lists). -/
def listRep (n : Nat) (l : List Char) : List Char :=
  match n with
  | 0 => []
  | m + 1 => l ++ listRep m l

/-- Value-list replication. -/
def listRepV (n : Nat) (l : List Val) : List Val :=
  match n with
  | 0 => []
  | m + 1 => l ++ listRepV m l

/-- Integer power of a rational with explicit inverse for negative
exponents. -/
def ratPow (q : Rat) (e : Int) : Rat :=
  if 0 ≤ e then q ^ e.toNat else (q ^ (-e).toNat)⁻¹

/-- Python `+` (`operator.add`). -/
def pyAdd (a b : Val) : Except (List Char) Val :=
  match isIntLike a, isIntLike b with
  | some x, some y => .ok (.vint (x + y))
  | _, _ =>
    match toRatQ a, toRatQ b with
    | some x, some y => .ok (.vrat (x + y))
    | _, _ =>
      match a, b with
      | .vstr s, .vstr t => .ok (.vstr (s ++ t))
      | .vlist xs, .vlist ys => .ok (.vlist (xs ++ ys))
      | _, _ =>
        .error ("unsupported operand type(s) for +: '".toList ++ typeName a ++
          "' and '".toList ++ typeName b ++ ['\''])

/-- Python `-` (`operator.sub`). -/
def pySub (a b : Val) : Except (List Char) Val :=
  match isIntLike a, isIntLike b with
  | some x, some y => .ok (.vint (x - y))
  | _, _ =>
    match toRatQ a, toRatQ b with
    | some x, some y => .ok (.vrat (x - y))
    | _, _ =>
      .error ("unsupported operand type(s) for -: '".toList ++ typeName a ++
        "' and '".toList ++ typeName b ++ ['\''])

/-- Python `*` (`operator.mul`), including sequence replication. -/
def pyMul (a b : Val) : Except (List Char) Val :=
  match isIntLike a, isIntLike b with
  | some x, some y => .ok (.vint (x * y))
  | _, _ =>
    match toRatQ a, toRatQ b with
    | some x, some y => .ok (.vrat (x * y))
    | _, _ =>
      match a, b with
      | .vstr s, .vint n => .ok (.vstr (listRep n.toNat s))
      | .vint n, .vstr s => .ok (.vstr (listRep n.toNat s))
      | .vlist l, .vint n => .ok (.vlist (listRepV n.toNat l))
      | .vint n, .vlist l => .ok (.vlist (listRepV n.toNat l))
      | _, _ =>
        .error ("unsupported operand type(s) for *: '".toList ++ typeName a ++
          "' and '".toList ++ typeName b ++ ['\''])

/-- Python `/` (`operator.truediv`): true division always yields a float;
division by zero raises `ZeroDivisionError('division by zero')`. -/
def pyDiv (a b : Val) : Except (List Char) Val :=
  match toRatQ a, toRatQ b with
  | some x, some y =>
    if y = 0 then .error "division by zero".toList else .ok (.vrat (x / y))
  | _, _ =>
    .error ("unsupported operand type(s) for /: '".toList ++ typeName a ++
      "' and '".toList ++ typeName b ++ ['\''])

/-- Python `//` (`operator.floordiv`): floor division. -/
def pyFloorDiv (a b : Val) : Except (List Char) Val :=
  match isIntLike a, isIntLike b with
  | some x, some y =>
    if y = 0 then .error "integer division or modulo by zero".toList
    else .ok (.vint (Int.fdiv x y))
  | _, _ =>
    match toRatQ a, toRatQ b with
    | some x, some y =>
      if y = 0 then .error "float floor division by zero".toList
      else .ok (.vrat ((⌊x / y⌋ : Int) : Rat))
    | _, _ =>
      .error ("unsupported operand type(s) for //: '".toList ++ typeName a ++
        "' and '".toList ++ typeName b ++ ['\''])

/-- Python `%` (`operator.mod`): the result takes the divisor's sign. -/
def pyMod (a b : Val) : Except (List Char) Val :=
  match isIntLike a, isIntLike b with
  | some x, some y =>
    if y = 0 then .error "integer division or modulo by zero".toList
    else .ok (.vint (Int.fmod x y))
  | _, _ =>
    match toRatQ a, toRatQ b with
    | some x, some y =>
      if y = 0 then .error "float modulo".toList
      else .ok (.vrat (x - y * ((⌊x / y⌋ : Int) : Rat)))
    | _, _ =>
      .error ("unsupported operand type(s) for %: '".toList ++ typeName a ++
        "' and '".toList ++ typeName b ++ ['\''])

/-- Python `**` (`operator.pow`) on the modelled numbers; a genuinely
non-integer exponent would produce an irrational float, which the rational
model cannot represent (no claim exercises it). -/
def pyPow (a b : Val) : Except (List Char) Val :=
  match isIntLike a, isIntLike b with
  | some x, some e =>
    if 0 ≤ e then .ok (.vint (x ^ e.toNat))
    else if x = 0 then .error "0.0 cannot be raised to a negative power".toList
    else .ok (.vrat (ratPow (x : Rat) e))
  | _, _ =>
    match toRatQ a, isIntLike b with
    | some q, some e =>
      if q = 0 ∧ e < 0 then .error "0.0 cannot be raised to a negative power".toList
      else .ok (.vrat (ratPow q e))
    | _, _ =>
      match toRatQ a, toRatQ b with
      | some _, some _ => .error "non-integer power not modelled".toList
      | _, _ =>
        .error ("unsupported operand type(s) for ** or pow(): '".toList ++ typeName a ++
          "' and '".toList ++ typeName b ++ ['\''])

/-- Binary operator nodes of the Python AST reaching `_eval_node`
(`ast.BinOp.op`); only the first seven are in `SafeEval.OPERATORS`. -/
inductive BOp where
  | add | sub | mul | div | floordiv | mod | pow
  | lshift | rshift | bitor | bitxor | bitand | matmult
deriving DecidableEq

/-- Unary operator nodes (`ast.UnaryOp.op`); `invert` is not in
`OPERATORS`. -/
inductive UOp where
  | neg | pos | notOp | invert
deriving DecidableEq

/-- Comparison operator nodes (`ast.Compare.ops`); identity and membership
tests are not in `OPERATORS`. -/
inductive COp where
  | eq | ne | lt | le | gt | ge | isOp | isNot | inOp | notIn
deriving DecidableEq

/-- AST class name of an unsupported operator, for the error message. -/
def bopName : BOp → List Char
  | .add => "Add".toList | .sub => "Sub".toList | .mul => "Mult".toList
  | .div => "Div".toList | .floordiv => "FloorDiv".toList | .mod => "Mod".toList
  | .pow => "Pow".toList | .lshift => "LShift".toList | .rshift => "RShift".toList
  | .bitor => "BitOr".toList | .bitxor => "BitXor".toList | .bitand => "BitAnd".toList
  | .matmult => "MatMult".toList

/-- AST class name of a comparison operator. -/
def copName : COp → List Char
  | .eq => "Eq".toList | .ne => "NotEq".toList | .lt => "Lt".toList
  | .le => "LtE".toList | .gt => "Gt".toList | .ge => "GtE".toList
  | .isOp => "Is".toList | .isNot => "IsNot".toList
  | .inOp => "In".toList | .notIn => "NotIn".toList

/-- Membership of a binary operator in `SafeEval.OPERATORS`. -/
def bopSupported : BOp → Bool
  | .add | .sub | .mul | .div | .floordiv | .mod | .pow => true
  | _ => false

/-- Membership of a comparison operator in `SafeEval.OPERATORS`. -/
def copSupported : COp → Bool
  | .eq | .ne | .lt | .le | .gt | .ge => true
  | _ => false

/-- The expression AST mirroring the node shapes `_eval_node` dispatches
on: constants, names, binary/unary operators, chained comparisons, boolean
conjunction/disjunction (`isAnd` selects the kind), the ternary
conditional, calls, list and dict displays, subscription and attribute
access. -/
inductive Expr where
  | const (v : Val)
  | name (id : List Char)
  | binop (op : BOp) (l r : Expr)
  | unop (op : UOp) (e : Expr)
  | compare (l : Expr) (pairs : List (COp × Expr))
  | boolop (isAnd : Bool) (vs : List Expr)
  | ifexp (t b e : Expr)
  | call (f : Expr) (args : List Expr) (kwargs : List (List Char × Expr))
  | elist (xs : List Expr)
  | edict (keys : List Expr) (vals : List Expr)
  | subscr (v : Expr) (idx : Expr)
  | attr (v : Expr) (a : List Char)

/-- Behaviour of the registered callables: the registry's functions live in
`custom_functions.py`, outside this component, so the evaluator is
parametric in what a call to a registered name does (it may itself fail,
modelling a raising callable). -/
def FnImpl : Type :=
  List Char → List Val → List (List Char × Val) → Except (List Char) Val

/-- Application of a value to arguments: only registered callables are
callable. -/
def applyVal (fns : FnImpl) (v : Val) (args : List Val) (kwargs : List (List Char × Val)) : Except (List Char) Val :=
  match v with
  | .vfn n => fns n args kwargs
  | _ => .error (['\''] ++ typeName v ++ "' object is not callable".toList)

/-- Apply a supported comparison operator. -/
def applyCmp (op : COp) (l r : Val) : Except (List Char) Bool :=
  match op with
  | .eq => .ok (pyEq l r)
  | .ne => .ok (!pyEq l r)
  | .lt => pyLt l r
  | .le => pyLe l r
  | .gt => pyLt r l
  | .ge => pyLe r l
  | _ => .error ("Unsupported comparison operator: ".toList ++ copName op)

/-- Apply a supported binary operator. -/
def applyBin (op : BOp) (l r : Val) : Except (List Char) Val :=
  match op with
  | .add => pyAdd l r
  | .sub => pySub l r
  | .mul => pyMul l r
  | .div => pyDiv l r
  | .floordiv => pyFloorDiv l r
  | .mod => pyMod l r
  | .pow => pyPow l r
  | _ => .error ("Unsupported binary operator: ".toList ++ bopName op)

/-- Apply a unary operator (`USub`, `UAdd`, `Not` are in `OPERATORS`). -/
def applyUn (op : UOp) (v : Val) : Except (List Char) Val :=
  match op with
  | .neg =>
    match isIntLike v with
    | some n => .ok (.vint (-n))
    | none =>
      match toRatQ v with
      | some q => .ok (.vrat (-q))
      | none => .error ("bad operand type for unary -: '".toList ++ typeName v ++ ['\''])
  | .pos =>
    match isIntLike v with
    | some n => .ok (.vint n)
    | none =>
      match toRatQ v with
      | some q => .ok (.vrat q)
      | none => .error ("bad operand type for unary +: '".toList ++ typeName v ++ ['\''])
  | .notOp => .ok (.vbool (!truthy v))
  | .invert => .error "Unsupported unary operator: Invert".toList

/-- Python subscription `value[idx]` over the modelled values, including
negative sequence indices. -/
def pySubscr (v idx : Val) : Except (List Char) Val :=
  match v with
  | .vlist xs =>
    match isIntLike idx with
    | some i =>
      let j := if i < 0 then i + xs.length else i
      if h : 0 ≤ j ∧ j.toNat < xs.length then .ok (xs.get ⟨j.toNat, h.2⟩)
      else .error "list index out of range".toList
    | none => .error ("list indices must be integers or slices, not ".toList ++ typeName idx)
  | .vstr s =>
    match isIntLike idx with
    | some i =>
      let j := if i < 0 then i + s.length else i
      if h : 0 ≤ j ∧ j.toNat < s.length then .ok (.vstr [s.get ⟨j.toNat, h.2⟩])
      else .error "string index out of range".toList
    | none => .error ("string indices must be integers, not ".toList ++ typeName idx)
  | .vdict ps =>
    match ps.find? (fun p => pyEq p.1 idx) with
    | some p => .ok p.2
    | none => .error "KeyError".toList
  | _ => .error (['\''] ++ typeName v ++ "' object is not subscriptable".toList)

/-- Dictionary-literal merge `le ++ ri` with the right operand overriding:
the model of Python's `|dict-unpacking|` merge used for
`self.variables = ⟨unpack variables, unpack _CUSTOM_FUNCTIONS⟩`. -/
def mergeDicts (le ri : List (List Char × Val)) : List (List Char × Val) :=
  le.map (fun p => (p.1, ((ri.lookup p.1).getD p.2))) ++
    ri.filter (fun p => (le.lookup p.1).isNone)

mutual

/-- Transcription of `SafeEval._eval_node`, with `env` the merged
variable dictionary. -/
def evalNode (fns : FnImpl) (env : List (List Char × Val)) : Expr → Except (List Char) Val
  | .const v => .ok v
  | .name id =>
    match env.lookup id with
    | some v => .ok v
    | none => .error ("Name '".toList ++ id ++ "' is not defined".toList)
  | .binop op l r =>
    if bopSupported op then do
      let lv ← evalNode fns env l
      let rv ← evalNode fns env r
      applyBin op lv rv
    else .error ("Unsupported binary operator: ".toList ++ bopName op)
  | .unop op e =>
    if op = UOp.invert then .error "Unsupported unary operator: Invert".toList
    else do
      let v ← evalNode fns env e
      applyUn op v
  | .compare l pairs => do
    let lv ← evalNode fns env l
    evalCmp fns env lv pairs
  | .boolop isAnd vs => if isAnd then evalAnd fns env vs else evalOr fns env vs
  | .ifexp t b e => do
    let c ← evalNode fns env t
    if truthy c then evalNode fns env b else evalNode fns env e
  | .call f args kwargs =>
    let fname : Option (List Char) := match f with | .name id => some id | _ => none
    match fname with
    | none => .error "Function 'None' is not defined".toList
    | some id =>
      if id.isEmpty then .error "Function '' is not defined".toList
      else
        match env.lookup id with
        | none => .error ("Function '".toList ++ id ++ "' is not defined".toList)
        | some v => do
          let avs ← evalList fns env args
          let kvs ← evalKw fns env kwargs
          applyVal fns v avs kvs
  | .elist xs => do
    let vs ← evalList fns env xs
    .ok (.vlist vs)
  | .edict keys vals => do
    let ks ← evalList fns env keys
    let vs ← evalList fns env vals
    .ok (.vdict (ks.zip vs))
  | .subscr v idx => do
    let vv ← evalNode fns env v
    let iv ← evalNode fns env idx
    pySubscr vv iv
  | .attr v a => do
    let vv ← evalNode fns env v
    .error (['\''] ++ typeName vv ++ "' object has no attribute '".toList ++ a ++ ['\''])

/-- Eager left-to-right evaluation of an expression list. -/
def evalList (fns : FnImpl) (env : List (List Char × Val)) : List Expr → Except (List Char) (List Val)
  | [] => .ok []
  | e :: rest => do
    let v ← evalNode fns env e
    let vs ← evalList fns env rest
    .ok (v :: vs)

/-- Eager evaluation of keyword arguments. -/
def evalKw (fns : FnImpl) (env : List (List Char × Val)) : List (List Char × Expr) → Except (List Char) (List (List Char × Val))
  | [] => .ok []
  | (k, e) :: rest => do
    let v ← evalNode fns env e
    let vs ← evalKw fns env rest
    .ok ((k, v) :: vs)

/-- The chained-comparison loop: short-circuit on the first failing pair. -/
def evalCmp (fns : FnImpl) (env : List (List Char × Val)) : Val → List (COp × Expr) → Except (List Char) Val
  | _, [] => .ok (.vbool true)
  | lv, (op, c) :: rest =>
    if copSupported op then do
      let rv ← evalNode fns env c
      let b ← applyCmp op lv rv
      if b then evalCmp fns env rv rest else .ok (.vbool false)
    else .error ("Unsupported comparison operator: ".toList ++ copName op)

/-- The `BoolOp` conjunction loop: `False` on the first falsy operand,
else `True`. -/
def evalAnd (fns : FnImpl) (env : List (List Char × Val)) : List Expr → Except (List Char) Val
  | [] => .ok (.vbool true)
  | e :: rest => do
    let v ← evalNode fns env e
    if truthy v then evalAnd fns env rest else .ok (.vbool false)

/-- The `BoolOp` disjunction loop: `True` on the first truthy operand,
else `False`. -/
def evalOr (fns : FnImpl) (env : List (List Char × Val)) : List Expr → Except (List Char) Val
  | [] => .ok (.vbool false)
  | e :: rest => do
    let v ← evalNode fns env e
    if truthy v then .ok (.vbool true) else evalOr fns env rest

end

/-- Transcription of `SafeEval.eval` with the fallback flag at its module
default `False`: bind the merged environment (row bindings first, registry
unpacked second, hence overriding), evaluate, and wrap any failure —
including a parse failure of the expression text, represented by the
`Except`-valued `parsed` argument — into the single `ValueError` text. -/
def safeEvalRun (fns : FnImpl) (funcs : List (List Char × Val)) (parsed : Except (List Char) Expr) (vars : List (List Char × Val)) : Except (List Char) Val :=
  let env := mergeDicts vars funcs
  match (do let a ← parsed; evalNode fns env a : Except (List Char) Val) with
  | .ok v => .ok v
  | .error e => .error ("Failed to evaluate expression: ".toList ++ e)

/-- Transcription of `evaluate_expression(expr, row_data, strict)`. -/
def evaluateExpression (fns : FnImpl) (funcs : List (List Char × Val)) (parsed : Except (List Char) Expr) (rowData : List (List Char × Val)) (strict : Bool) : Except (List Char) Val :=
  match safeEvalRun fns funcs parsed rowData with
  | .ok v => .ok v
  | .error e =>
    if strict then .error ("Expression evaluation error: ".toList ++ e)
    else .ok (.vstr ("[Error: ".toList ++ e ++ [']']))

/-! ## IdentifierAliasRewriter: `repl.rewrite_identifiers`

A character scanner with three states: outside any quoting, inside a
single-quoted string literal (with doubled-quote escapes, everything
emitted verbatim), and inside a double-quoted identifier (with
doubled-quote escapes collected into the unescaped identifier text).  A
recognized identifier that is a key of the alias table is replaced by its
alias — bare when the alias is a safe identifier, re-quoted with doubled
internal quotes otherwise; unknown identifiers are re-emitted in canonical
quoted form; an unterminated identifier is passed through verbatim from
its opening quote.
-/

/-- Quote escaping `alias.replace('"', '""')`. -/
def escD : List Char → List Char
  | [] => []
  | '"' :: rest => '"' :: '"' :: escD rest
  | c :: rest => c :: escD rest

/-- Emission for a recognized double-quoted identifier: replace by the
alias when the table maps it to a non-empty alias (bare if the alias
matches `^[A-Za-z_][A-Za-z0-9_]*$`, re-quoted otherwise); keep the
original identifier, canonically quoted, when there is no (truthy)
alias. -/
def emitIdent (tbl : List (List Char × List Char)) (ident : List Char) : List Char :=
  match tbl.lookup ident with
  | some al =>
    if !al.isEmpty then
      (if isSafeIdent al then al else '"' :: (escD al ++ ['"']))
    else '"' :: (escD ident ++ ['"'])
  | none => '"' :: (escD ident ++ ['"'])

mutual

/-- The scanner outside quotes. -/
def rwOut (tbl : List (List Char × List Char)) : List Char → List Char
  | [] => []
  | '\'' :: rest => '\'' :: rwSingle tbl rest
  | '"' :: rest => rwIdent tbl rest []
  | c :: rest => c :: rwOut tbl rest

/-- The scanner inside a single-quoted literal: everything is emitted
verbatim; a doubled quote stays inside, a lone quote leaves. -/
def rwSingle (tbl : List (List Char × List Char)) : List Char → List Char
  | [] => []
  | '\'' :: '\'' :: rest => '\'' :: '\'' :: rwSingle tbl rest
  | '\'' :: rest => '\'' :: rwOut tbl rest
  | c :: rest => c :: rwSingle tbl rest

/-- The scanner inside a double-quoted identifier: collect the unescaped
identifier text; a doubled quote contributes one quote to it; a lone
quote ends it; end-of-input replays the whole span verbatim (the buffer
re-escaped behind the opening quote). -/
def rwIdent (tbl : List (List Char × List Char)) : List Char → List Char → List Char
  | [], buf => '"' :: escD buf.reverse
  | '"' :: '"' :: rest, buf => rwIdent tbl rest ('"' :: buf)
  | '"' :: rest, buf => emitIdent tbl buf.reverse ++ rwOut tbl rest
  | c :: rest, buf => rwIdent tbl rest (c :: buf)

end

/-- Transcription of `rewrite_identifiers(sql)`: an empty alias table
short-circuits to the input. -/
def rewriteIdentifiers (tbl : List (List Char × List Char)) (s : List Char) : List Char :=
  if tbl.isEmpty then s else rwOut tbl s

/-- Test for the claim's hypothesis on C9: no double-quote character
outside single-quoted string literals, tracking the literal state with
doubled-quote escapes (the state flag is true inside a literal). -/
def noDQAux : Bool → List Char → Bool
  | _, [] => true
  | false, '"' :: _ => false
  | false, '\'' :: rest => noDQAux true rest
  | false, _ :: rest => noDQAux false rest
  | true, '\'' :: '\'' :: rest => noDQAux true rest
  | true, '\'' :: rest => noDQAux false rest
  | true, _ :: rest => noDQAux true rest

/-- A single-quoted literal segment: the body up to and including the
closing quote (with doubled quotes kept), and the remainder; an
unterminated literal runs to the end of input. -/
def takeLit : List Char → List Char × List Char
  | [] => ([], [])
  | '\'' :: '\'' :: rest =>
    let p := takeLit rest
    ('\'' :: '\'' :: p.1, p.2)
  | '\'' :: rest => (['\''], rest)
  | c :: rest =>
    let p := takeLit rest
    (c :: p.1, p.2)

/-! ## Decimal numerals

`Nat.repr` footwork for the mapper's `_1`, `_2`, … suffixes and
`sheet_<counter>` names: a digit-valuation function giving injectivity of
the printed numeral. -/

/-- Value of a decimal digit character. -/
def digitVal (c : Char) : Nat := c.toNat - '0'.toNat

/-- Value of a big-endian digit string. -/
def valDigits : List Char → Nat
  | [] => 0
  | c :: rest => digitVal c * 10 ^ rest.length + valDigits rest

/-- A stub implementation of the external function registry's behaviour,
used to instantiate `FnImpl` in closed statements. -/
def fnStub : FnImpl := fun _ _ _ => .error "external function not modelled".toList

/-! ## Theorems -/

theorem doubleQ_no_backslash {v : List Char} (h : '\\' ∉ v) : '\\' ∉ doubleQ v := by
  induction v with
  | nil => exact List.not_mem_nil _
  | cons c rest ih =>
    have hc : c ≠ '\\' := fun hEq => h (hEq ▸ List.mem_cons_self c rest)
    have hr : '\\' ∉ rest := fun hm => h (List.mem_cons_of_mem c hm)
    by_cases hq : c = '\''
    · subst hq
      simp only [doubleQ, List.mem_cons]
      intro hmem
      rcases hmem with h1 | h1 | h1
      · exact absurd h1.symm (by decide)
      · exact absurd h1.symm (by decide)
      · exact ih hr h1
    · simp only [doubleQ, hq, List.mem_cons]
      intro hmem
      rcases hmem with h1 | h1
      · exact hc h1.symm
      · exact ih hr h1

theorem procTemplate_no_backslash : ∀ t : List Char, '\\' ∉ t → procTemplate t = .ok t := by
  intro t
  induction t with
  | nil => intro _; rfl
  | cons c rest ih =>
    intro h
    have hc : c ≠ '\\' := fun hEq => h (hEq ▸ List.mem_cons_self c rest)
    have hr : '\\' ∉ rest := fun hm => h (List.mem_cons_of_mem c hm)
    unfold procTemplate
    simp only [hc, if_false, ih hr, Except.map]

theorem procTemplate_escVal_some {v : List Char} (h : '\\' ∉ v) :
    procTemplate (escVal (some v)) = .ok (escVal (some v)) := by
  apply procTemplate_no_backslash
  simp only [escVal, List.mem_cons, List.mem_append, List.mem_singleton]
  intro hmem
  rcases hmem with h1 | h1 | h1
  · exact absurd h1.symm (by decide)
  · exact doubleQ_no_backslash h h1
  · exact absurd h1.symm (by decide)

/-- C10: the escaped parameter value is spliced into the SQL text as a
regex replacement template, not as literal text: a value consisting of a
backslash followed by `d` makes `apply_params` raise (a bad escape) rather
than return a string, while a backslash followed by `n` is translated to a
newline character in the output literal instead of being kept verbatim —
so `apply_params` is not total and differs from pure doubled-quote
escaping on values containing backslashes. -/
theorem c10_replacement_template :
    applyParams ":p".toList (some [("p".toList, some ['\\', 'd'])]) = .error "bad escape \\d".toList
    ∧ applyParams "x = :p".toList (some [("p".toList, some ['\\', 'n'])]) =
        .ok ("x = ".toList ++ ['\'', '\n', '\''])
    ∧ ('\'' :: (doubleQ ['\\', 'n'] ++ ['\''])) ≠ ['\'', '\n', '\''] := by
  exact ⟨rfl, rfl, by decide⟩

/-- C5 counterexample: the claim promises that every non-null value is
replaced by a single-quoted literal with embedded quotes doubled, but for
the value backslash-`d` the substitution raises a bad-escape error
instead of producing that literal. -/
theorem c5_counterexample :
    applyParams "x = :p".toList (some [("p".toList, some ['\\', 'd'])]) = .error "bad escape \\d".toList
    ∧ applyParams "x = :p".toList (some [("p".toList, some ['\\', 'd'])]) ≠
        .ok ("x = ".toList ++ ('\'' :: (doubleQ ['\\', 'd'] ++ ['\'']))) := by
  refine ⟨rfl, ?_⟩
  intro h
  rw [(rfl : applyParams "x = :p".toList (some [("p".toList, some ['\\', 'd'])]) =
    .error "bad escape \\d".toList)] at h
  exact Except.noConfusion h

/-- C5 amended: `apply_params` returns the text unchanged for absent or
empty parameter maps; a valid-identifier name bound to the null marker
replaces its `:name` tokens (on word boundaries) with the bare text
`NULL`; a valid-identifier name bound to a backslash-free value replaces
them with the single-quoted literal whose embedded quotes are doubled;
names that are not valid identifiers are silently skipped, leaving the
text as-is.  (Values containing backslashes are processed as regex
replacement templates and may error, per C10.) -/
theorem c5_amended :
    (∀ s, applyParams s none = .ok s)
    ∧ (∀ s, applyParams s (some []) = .ok s)
    ∧ (∀ s k v, isPyIdent k = true → '\\' ∉ v →
        applyParams s (some [(k, some v)]) = .ok (subParam k ('\'' :: (doubleQ v ++ ['\''])) s))
    ∧ (∀ s k, isPyIdent k = true →
        applyParams s (some [(k, none)]) = .ok (subParam k "NULL".toList s))
    ∧ (∀ s k v, isPyIdent k = false → applyParams s (some [(k, v)]) = .ok s) := by
  refine ⟨fun s => rfl, fun s => rfl, ?_, ?_, ?_⟩
  · intro s k v hk hv
    have heq : procTemplate ('\'' :: (doubleQ v ++ ['\''])) = .ok ('\'' :: (doubleQ v ++ ['\''])) :=
      procTemplate_escVal_some hv
    simp only [applyParams, applyParamsGo, hk, if_true, escVal, heq]
  · intro s k hk
    have : procTemplate (escVal none) = .ok "NULL".toList := by rfl
    simp only [applyParams, applyParamsGo, hk, if_true, this]
  · intro s k v hk
    simp only [applyParams, applyParamsGo, hk, Bool.false_eq_true, if_false]

/-- C5 amended, witness: the substitutions at concrete inputs, including
the claim's own `O'Brien` example. -/
theorem c5_amended_witness :
    applyParams "n = :p".toList (some [("p".toList, some "O'Brien".toList)]) =
      .ok "n = 'O''Brien'".toList
    ∧ applyParams "n = :p".toList (some [("p".toList, none)]) = .ok "n = NULL".toList
    ∧ applyParams "n = :p".toList none = .ok "n = :p".toList
    ∧ applyParams "n = :p".toList (some []) = .ok "n = :p".toList
    ∧ applyParams "n = :1x".toList (some [("1x".toList, some "v".toList)]) = .ok "n = :1x".toList := by
  refine ⟨?_, ?_, c5_amended.1 _, c5_amended.2.1 _, ?_⟩
  · rw [c5_amended.2.2.1 _ _ _ (by decide) (by decide)]; rfl
  · rw [c5_amended.2.2.2.1 _ _ (by decide)]; rfl
  · rw [c5_amended.2.2.2.2 _ _ _ (by decide)]

theorem applyParamsGo_append (ps qs : List (List Char × Option (List Char))) :
    ∀ s, applyParamsGo s (ps ++ qs) =
      match applyParamsGo s ps with
      | .ok s2 => applyParamsGo s2 qs
      | .error e => .error e := by
  induction ps with
  | nil => intro s; rfl
  | cons p rest ih =>
    intro s
    obtain ⟨k, v⟩ := p
    by_cases hk : isPyIdent k = true
    · simp only [List.cons_append, applyParamsGo, hk, if_true]
      cases procTemplate (escVal v) with
      | error e => rfl
      | ok tmpl => exact ih _
    · simp only [List.cons_append, applyParamsGo, Bool.not_eq_true] at *
      simp only [hk, Bool.false_eq_true, if_false]
      exact ih s

/-- C3 counterexample: with the map binding `a` to the value `:b` and `b`
to `x`, substituting into `:a` first produces the literal `':b'` and the
second pass then substitutes `:b` inside it, yielding `''x''` — whereas
the combined single pass computed from the original text (the claim's
required behaviour, `subAllSpec`) yields `':b'`.  Double substitution
across parameters does occur. -/
theorem c3_counterexample :
    applyParams ":a".toList (some [("a".toList, some ":b".toList), ("b".toList, some "x".toList)]) =
      .ok "''x''".toList
    ∧ subAllSpec [("a".toList, some ":b".toList), ("b".toList, some "x".toList)] ":a".toList =
        "':b'".toList
    ∧ "''x''".toList ≠ "':b'".toList := by
  exact ⟨rfl, rfl, by decide⟩

/-- C3 amended: substitution is not a combined pass over the original
text; it is sequential, one full-text `re.sub` pass per parameter in map
iteration order, each pass rescanning the output of the previous one
(`apply_params` over a concatenation of parameter lists is the
composition of the passes).  Consequently a `:name` token that appears
inside the quoted literal spliced in for an earlier parameter is
substituted by a later parameter, as at the concrete input of the
counterexample. -/
theorem c3_amended :
    (∀ s ps qs, ps ≠ [] → qs ≠ [] →
      applyParams s (some (ps ++ qs)) =
        match applyParams s (some ps) with
        | .ok s2 => applyParams s2 (some qs)
        | .error e => .error e)
    ∧ applyParams ":a".toList (some [("a".toList, some ":b".toList)]) = .ok "':b'".toList
    ∧ applyParams "':b'".toList (some [("b".toList, some "x".toList)]) = .ok "''x''".toList := by
  refine ⟨?_, rfl, rfl⟩
  intro s ps qs hps hqs
  have h1 : applyParams s (some (ps ++ qs)) = applyParamsGo s (ps ++ qs) := by
    cases ps with
    | nil => exact absurd rfl hps
    | cons p rest => rfl
  have h2 : applyParams s (some ps) = applyParamsGo s ps := by
    cases ps with
    | nil => exact absurd rfl hps
    | cons p rest => rfl
  rw [h1, h2, applyParamsGo_append]
  cases applyParamsGo s ps with
  | error e => rfl
  | ok s2 =>
    cases qs with
    | nil => exact absurd rfl hqs
    | cons q rest => rfl

/-- C3 amended, witness: the composition at a concrete input. -/
theorem c3_amended_witness :
    applyParams ":a :c".toList
        (some ([("a".toList, some "1".toList)] ++ [("c".toList, some "2".toList)])) =
      match applyParams ":a :c".toList (some [("a".toList, some "1".toList)]) with
      | .ok s2 => applyParams s2 (some [("c".toList, some "2".toList)])
      | .error e => .error e :=
  c3_amended.1 ":a :c".toList _ _ (by decide) (by decide)

/-- C6 counterexample: a query whose first whitespace-delimited word is
`SELECTION` — not the keyword `SELECT` — is accepted by `validate_query`
(the check is `startswith("SELECT")` on the upper-cased text), contrary to
the claim that only a first keyword exactly equal to `SELECT` is
accepted. -/
theorem c6_counterexample :
    validateQuery "SELECTION 1".toList [] false = .ok ()
    ∧ firstWord ("SELECTION 1".toList.dropWhile pySpace) ≠ "SELECT".toList := by
  exact ⟨rfl, by decide⟩

/-- C6 amended: `validate_query` succeeds trivially on an empty query, and
for every non-empty query it raises the not-a-SELECT error exactly when
the trimmed query upper-cased does not have `SELECT` as a prefix — a
prefix test, so a first word that merely starts with the letters
S-E-L-E-C-T (such as `SELECTION`) is accepted. -/
theorem c6_amended :
    (∀ avail strict, validateQuery [] avail strict = .ok ())
    ∧ (∀ q avail strict, q ≠ [] →
        (validateQuery q avail strict = .error .notASelect ↔
          selectPrefix (q.dropWhile pySpace) = false)) := by
  constructor
  · intro avail strict; rfl
  · intro q avail strict hq
    simp only [validateQuery, hq, if_false]
    by_cases hsel : selectPrefix (q.dropWhile pySpace) = false
    · simp [hsel]
    · simp only [Bool.not_eq_false] at hsel
      simp only [hsel, Bool.not_true, Bool.false_eq_true, if_false]
      constructor
      · intro hcontra
        exfalso
        revert hcontra
        split
        · intro h; cases h
        · split
          · intro h; cases h
          · split
            · intro h; cases h
            · intro h; cases h
      · intro hcontra
        exact Bool.noConfusion hcontra

/-- C6 amended, witness: the two components at concrete inputs. -/
theorem c6_amended_witness :
    validateQuery [] [] true = .ok ()
    ∧ (validateQuery "delete from t".toList [] false = .error .notASelect ↔
        selectPrefix ("delete from t".toList.dropWhile pySpace) = false) :=
  ⟨c6_amended.1 [] true, c6_amended.2 "delete from t".toList [] false (by decide)⟩

theorem lookup_append (xs ys : List (List Char × Val)) (k : List Char) :
    (xs ++ ys).lookup k =
      match xs.lookup k with
      | some v => some v
      | none => ys.lookup k := by
  induction xs with
  | nil => rfl
  | cons p rest ih =>
    obtain ⟨k0, v0⟩ := p
    by_cases h : k = k0
    · subst h; simp [List.lookup_cons]
    · have hb : (k == k0) = false := beq_eq_false_iff_ne.mpr h
      simp [List.lookup_cons, hb, ih]

theorem lookup_eq_find (l : List (List Char × Val)) (k : List Char) :
    l.lookup k = (l.find? (fun p => k == p.1)).map (fun p => p.2) := by
  induction l with
  | nil => rfl
  | cons p rest ih =>
    obtain ⟨k0, v0⟩ := p
    by_cases h : k = k0
    · subst h; simp [List.lookup_cons, List.find?_cons]
    · have hb : (k == k0) = false := beq_eq_false_iff_ne.mpr h
      simp [List.lookup_cons, List.find?_cons, hb, ih]

theorem lookup_filter_keep (b : List (List Char × Val)) (q : List Char × Val → Bool)
    (k : List Char) (hkeep : ∀ p ∈ b, p.1 = k → q p = true) :
    (b.filter q).lookup k = b.lookup k := by
  induction b with
  | nil => rfl
  | cons p rest ih =>
    obtain ⟨k0, v0⟩ := p
    have ihr := ih (fun p hp => hkeep p (List.mem_cons_of_mem _ hp))
    by_cases h : k = k0
    · subst h
      have hq : q (k, v0) = true := hkeep (k, v0) (List.mem_cons_self _ _) rfl
      simp [List.filter_cons, hq, List.lookup_cons, ihr]
    · have hb : (k == k0) = false := beq_eq_false_iff_ne.mpr h
      by_cases hq : q (k0, v0) = true
      · simp [List.filter_cons, hq, List.lookup_cons, hb, ihr]
      · simp only [Bool.not_eq_true] at hq
        simp [List.filter_cons, hq, List.lookup_cons, hb, ihr]

theorem lookup_filter_none (b : List (List Char × Val)) (q : List Char × Val → Bool)
    (k : List Char) (hnone : b.lookup k = none) :
    (b.filter q).lookup k = none := by
  induction b with
  | nil => rfl
  | cons p rest ih =>
    obtain ⟨k0, v0⟩ := p
    by_cases h : k = k0
    · subst h; simp [List.lookup_cons] at hnone
    · have hb : (k == k0) = false := beq_eq_false_iff_ne.mpr h
      simp only [List.lookup_cons, hb] at hnone
      by_cases hq : q (k0, v0) = true
      · simp [List.filter_cons, hq, List.lookup_cons, hb, ih hnone]
      · simp only [Bool.not_eq_true] at hq
        simp [List.filter_cons, hq, ih hnone]

theorem mergeDicts_lookup (a b : List (List Char × Val)) (k : List Char) :
    (mergeDicts a b).lookup k =
      match b.lookup k with
      | some v => some v
      | none => a.lookup k := by
  unfold mergeDicts
  rw [lookup_append]
  rw [lookup_eq_find (a.map (fun p => (p.1, (b.lookup p.1).getD p.2))) k]
  rw [List.find?_map]
  have hcomp : ((fun p : List Char × Val => k == p.1) ∘
      (fun p : List Char × Val => (p.1, (b.lookup p.1).getD p.2))) =
      (fun p : List Char × Val => k == p.1) := rfl
  rw [hcomp]
  rw [lookup_eq_find a k]
  cases hfa : a.find? (fun p => k == p.1) with
  | some p =>
    have hp1 : k = p.1 := by
      have := List.find?_some hfa
      exact eq_of_beq this
    cases hfb : b.lookup k with
    | some w =>
      simp only [Option.map_some']
      rw [← hp1, hfb]
      rfl
    | none =>
      simp only [Option.map_some']
      rw [← hp1, hfb]
      rfl
  | none =>
    simp only [Option.map_none']
    cases hfb : b.lookup k with
    | some w =>
      rw [lookup_filter_keep b _ k]
      · simp [hfb]
      · intro p _ hpk
        rw [hpk, lookup_eq_find, hfa]
        rfl
    | none =>
      rw [lookup_filter_none b _ k hfb]

/-- C1 counterexample: with a registry entry and a row column both named
`coalesce`, a `VariableRef` to that name evaluates to the registered
function, not to the row column's value — the merge
`(unpack variables, unpack _CUSTOM_FUNCTIONS)` lets the later registry
unpacking override the row bindings, the opposite of the claimed
precedence. -/
theorem c1_counterexample :
    evaluateExpression fnStub [("coalesce".toList, .vfn "coalesce".toList)]
        (.ok (.name "coalesce".toList)) [("coalesce".toList, .vint 1)] false =
      .ok (.vfn "coalesce".toList)
    ∧ Val.vfn "coalesce".toList ≠ Val.vint 1 := by
  exact ⟨rfl, fun h => Val.noConfusion h⟩

/-- C1 amended: name lookup during evaluation merges the row bindings
first and overlays the function registry, so whenever a row column has
the same name as a registered function, a `VariableRef` to that name
yields the registered function's value — the registry shadows the row
data; the row value is returned only for names absent from the registry,
and a name bound in neither fails with the wrapped `NameError`. -/
theorem c1_amended :
    (∀ (fns : FnImpl) (funcs row : List (List Char × Val)) (n : List Char) (v : Val),
      funcs.lookup n = some v →
      safeEvalRun fns funcs (.ok (.name n)) row = .ok v)
    ∧ (∀ (fns : FnImpl) (funcs row : List (List Char × Val)) (n : List Char) (v : Val),
      funcs.lookup n = none → row.lookup n = some v →
      safeEvalRun fns funcs (.ok (.name n)) row = .ok v)
    ∧ (∀ (fns : FnImpl) (funcs row : List (List Char × Val)) (n : List Char),
      funcs.lookup n = none → row.lookup n = none →
      safeEvalRun fns funcs (.ok (.name n)) row =
        .error ("Failed to evaluate expression: Name '".toList ++ n ++ "' is not defined".toList)) := by
  have hrun : ∀ (fns : FnImpl) (funcs row : List (List Char × Val)) (n : List Char),
      safeEvalRun fns funcs (.ok (.name n)) row =
        match (mergeDicts row funcs).lookup n with
        | some v => .ok v
        | none => .error ("Failed to evaluate expression: ".toList ++
            ("Name '".toList ++ n ++ "' is not defined".toList)) := by
    intro fns funcs row n
    cases h : (mergeDicts row funcs).lookup n with
    | some v =>
      have he : evalNode fns (mergeDicts row funcs) (.name n) = .ok v := by
        rw [show evalNode fns (mergeDicts row funcs) (.name n) =
          (match (mergeDicts row funcs).lookup n with
           | some v => Except.ok v
           | none => Except.error ("Name '".toList ++ n ++ "' is not defined".toList)) from rfl, h]
      show (match evalNode fns (mergeDicts row funcs) (.name n) with
        | Except.ok v => Except.ok v
        | Except.error e => Except.error ("Failed to evaluate expression: ".toList ++ e)) = _
      rw [he]
    | none =>
      have he : evalNode fns (mergeDicts row funcs) (.name n) =
          .error ("Name '".toList ++ n ++ "' is not defined".toList) := by
        rw [show evalNode fns (mergeDicts row funcs) (.name n) =
          (match (mergeDicts row funcs).lookup n with
           | some v => Except.ok v
           | none => Except.error ("Name '".toList ++ n ++ "' is not defined".toList)) from rfl, h]
      show (match evalNode fns (mergeDicts row funcs) (.name n) with
        | Except.ok v => Except.ok v
        | Except.error e => Except.error ("Failed to evaluate expression: ".toList ++ e)) = _
      rw [he]
  refine ⟨?_, ?_, ?_⟩
  · intro fns funcs row n v hf
    rw [hrun, mergeDicts_lookup, hf]
  · intro fns funcs row n v hf hr
    rw [hrun, mergeDicts_lookup, hf, hr]
  · intro fns funcs row n hf hr
    rw [hrun, mergeDicts_lookup, hf, hr]
    simp [List.append_assoc]

/-- C1 amended, witness: the three lookup outcomes at concrete inputs. -/
theorem c1_amended_witness :
    safeEvalRun fnStub [("f".toList, .vfn "f".toList)] (.ok (.name "f".toList))
        [("f".toList, .vint 7)] = .ok (.vfn "f".toList)
    ∧ safeEvalRun fnStub [("g".toList, .vfn "g".toList)] (.ok (.name "h".toList))
        [("h".toList, .vint 7)] = .ok (.vint 7)
    ∧ safeEvalRun fnStub [] (.ok (.name "h".toList)) [] =
        .error ("Failed to evaluate expression: Name '".toList ++ "h".toList ++ "' is not defined".toList) :=
  ⟨c1_amended.1 fnStub _ _ _ _ (by rfl), c1_amended.2.1 fnStub _ _ _ _ (by rfl) (by rfl),
    c1_amended.2.2 fnStub [] [] "h".toList (by rfl) (by rfl)⟩

/-- C8: with `strict=false`, `evaluate_expression` never raises: every
result is a value; whenever the inner evaluation fails with message `e`,
the non-strict result is exactly the sentinel string `[Error: e]`
(starting with `[Error:`) and the strict result re-raises the wrapped
error; in particular evaluating `1/0` against an empty row non-strictly
returns the sentinel for the division-by-zero failure. -/
theorem c8_nonstrict_never_raises :
    (∀ (fns : FnImpl) (funcs : List (List Char × Val)) (parsed : Except (List Char) Expr)
        (row : List (List Char × Val)),
      ∃ v, evaluateExpression fns funcs parsed row false = .ok v)
    ∧ (∀ (fns : FnImpl) (funcs : List (List Char × Val)) (parsed : Except (List Char) Expr)
        (row : List (List Char × Val)) (e : List Char),
      safeEvalRun fns funcs parsed row = .error e →
      evaluateExpression fns funcs parsed row false = .ok (.vstr ("[Error: ".toList ++ e ++ [']']))
      ∧ List.isPrefixOf "[Error:".toList ("[Error: ".toList ++ e ++ [']']) = true
      ∧ evaluateExpression fns funcs parsed row true =
          .error ("Expression evaluation error: ".toList ++ e))
    ∧ evaluateExpression fnStub [] (.ok (.binop .div (.const (.vint 1)) (.const (.vint 0)))) [] false =
        .ok (.vstr "[Error: Failed to evaluate expression: division by zero]".toList) := by
  refine ⟨?_, ?_, rfl⟩
  · intro fns funcs parsed row
    cases h : safeEvalRun fns funcs parsed row with
    | ok v => exact ⟨v, by simp only [evaluateExpression, h]⟩
    | error e =>
      refine ⟨.vstr ("[Error: ".toList ++ e ++ [']']), ?_⟩
      simp only [evaluateExpression, h, Bool.false_eq_true, if_false]
  · intro fns funcs parsed row e h
    have hpre : List.isPrefixOf "[Error:".toList ("[Error: ".toList ++ e ++ [']']) = true := by
      rw [List.isPrefixOf_iff_prefix]
      have h1 : "[Error:".toList <+: "[Error: ".toList := by decide
      have h2 : "[Error: ".toList <+: ("[Error: ".toList ++ e ++ [']']) := by
        rw [List.append_assoc]
        exact List.prefix_append _ _
      exact h1.trans h2
    refine ⟨?_, hpre, ?_⟩
    · simp only [evaluateExpression, h, Bool.false_eq_true, if_false]
    · simp only [evaluateExpression, h, if_true]

/-- C8, witness: the failure shape at a concrete failing input (an
unknown name). -/
theorem c8_witness :
    evaluateExpression fnStub [] (.ok (.name "x".toList)) [] false =
      .ok (.vstr ("[Error: ".toList ++ "Failed to evaluate expression: Name 'x' is not defined".toList ++ [']']))
    ∧ List.isPrefixOf "[Error:".toList
        ("[Error: ".toList ++ "Failed to evaluate expression: Name 'x' is not defined".toList ++ [']']) = true
    ∧ evaluateExpression fnStub [] (.ok (.name "x".toList)) [] true =
        .error ("Expression evaluation error: ".toList ++
          "Failed to evaluate expression: Name 'x' is not defined".toList) :=
  c8_nonstrict_never_raises.2.1 fnStub [] (.ok (.name "x".toList)) []
    "Failed to evaluate expression: Name 'x' is not defined".toList (by rfl)

/-- C4 counterexample: the claimed algorithm collapses each run of
disallowed characters to a single underscore and synthesizes
`sheet_<counter>` for all-symbol input; the code instead replaces every
disallowed character by its own underscore (so `a  b`, with two spaces,
becomes `a__b`, not `a_b`) and synthesizes only for the empty sanitized
result, which arises only from the empty name (`@@@` becomes `s____`,
not `sheet_0`). -/
theorem c4_counterexample :
    (addSheet emptyMapper "a  b".toList).1 = "a__b".toList
    ∧ (candidateSpecRuns 0 "a  b".toList).1 = "a_b".toList
    ∧ "a__b".toList ≠ "a_b".toList
    ∧ (addSheet emptyMapper "@@@".toList).1 = "s____".toList
    ∧ (addSheet emptyMapper "@@@".toList).1 ≠ "sheet_0".toList := by
  exact ⟨rfl, rfl, by decide, rfl, by decide⟩

/-- C4 amended: `register` lower-cases the name and replaces every
character outside `[A-Za-z0-9_]` with one underscore each (a run of k
characters yields k underscores); the sanitized result is empty only for
the empty original name, and only then is `sheet_<counter>` synthesized
(the counter advancing); a result not starting with a letter — including
all-symbol inputs, which become all underscores — is prefixed with `s_`;
a candidate colliding with an already-assigned identifier gets `_1`,
`_2`, … appended until unique.  `register("Sheet With Spaces")` yields
`sheet_with_spaces` and `register("123Sheet")` yields `s_123sheet`;
registering the empty name yields `sheet_0`, and registering it again
returns `sheet_0` (idempotence — `sheet_1` is never produced for it). -/
theorem c4_amended :
    (∀ name, sanitizeName name = name.map (fun c => if isSafeC c.toLower then c.toLower else '_'))
    ∧ (∀ name, sanitizeName name = [] ↔ name = [])
    ∧ (∀ st name, st.nameMap.lookup name = none →
        (addSheet st name).1 = dedupName (candidateName st.counter name).1 (st.revMap.map (fun p => p.1)))
    ∧ runMapperIds ["Sheet With Spaces".toList, "123Sheet".toList, "a  b".toList, "@@@".toList, "".toList] =
        ["sheet_with_spaces".toList, "s_123sheet".toList, "a__b".toList, "s____".toList, "sheet_0".toList]
    ∧ (addSheet (addSheet emptyMapper []).2 []).1 = "sheet_0".toList := by
  refine ⟨?_, ?_, ?_, rfl, rfl⟩
  · intro name
    unfold sanitizeName
    rw [List.map_map]
    rfl
  · intro name
    unfold sanitizeName
    simp
  · intro st name h
    simp only [addSheet, h]

/-- C4 amended, witness: the general components at concrete inputs. -/
theorem c4_amended_witness :
    sanitizeName "a  b".toList = "a  b".toList.map (fun c => if isSafeC c.toLower then c.toLower else '_')
    ∧ (sanitizeName "@@@".toList = [] ↔ "@@@".toList = [])
    ∧ (addSheet emptyMapper "Sheet With Spaces".toList).1 =
        dedupName (candidateName 0 "Sheet With Spaces".toList).1 []
    ∧ (addSheet emptyMapper "Sheet With Spaces".toList).1 = "sheet_with_spaces".toList := by
  refine ⟨c4_amended.1 _, c4_amended.2.1 _, ?_, rfl⟩
  have h := c4_amended.2.2.1 emptyMapper "Sheet With Spaces".toList (by rfl)
  simpa using h

theorem digitVal_digitChar : ∀ r, r < 10 → digitVal (Nat.digitChar r) = r := by decide

theorem isDigit_digitChar : ∀ r, r < 10 → (Nat.digitChar r).isDigit = true := by decide

theorem toDigitsCore_val : ∀ (f n : Nat) (ds : List Char), n < f →
    valDigits (Nat.toDigitsCore 10 f n ds) = n * 10 ^ ds.length + valDigits ds := by
  intro f
  induction f with
  | zero => intro n ds h; omega
  | succ f ih =>
    intro n ds h
    unfold Nat.toDigitsCore
    by_cases h0 : n / 10 = 0
    · have hn : n < 10 := (Nat.div_eq_zero_iff (by norm_num)).mp h0
      simp only [h0, if_true]
      rw [valDigits, digitVal_digitChar _ (Nat.mod_lt _ (by norm_num)),
        Nat.mod_eq_of_lt hn]
    · simp only [h0, if_false]
      have hpos : 0 < n := by
        rcases Nat.eq_zero_or_pos n with h1 | h1
        · exact absurd (by rw [h1]) h0
        · exact h1
      have hlt : n / 10 < f := by
        have := Nat.div_lt_self hpos (by norm_num : (1:Nat) < 10)
        omega
      rw [ih (n / 10) (Nat.digitChar (n % 10) :: ds) hlt]
      rw [valDigits, digitVal_digitChar _ (Nat.mod_lt _ (by norm_num))]
      have hdm : 10 * (n / 10) + n % 10 = n := Nat.div_add_mod n 10
      rw [List.length_cons, pow_succ]
      have key : n / 10 * (10 ^ ds.length * 10) + n % 10 * 10 ^ ds.length = n * 10 ^ ds.length := by
        calc n / 10 * (10 ^ ds.length * 10) + n % 10 * 10 ^ ds.length
            = (10 * (n / 10) + n % 10) * 10 ^ ds.length := by ring
          _ = n * 10 ^ ds.length := by rw [hdm]
      linarith [key]

theorem repr_val (n : Nat) : valDigits (Nat.repr n).toList = n := by
  show valDigits (List.asString (Nat.toDigitsCore 10 (n + 1) n [])).toList = n
  rw [show (List.asString (Nat.toDigitsCore 10 (n + 1) n [])).toList =
    Nat.toDigitsCore 10 (n + 1) n [] from rfl]
  rw [toDigitsCore_val (n + 1) n [] (Nat.lt_succ_self n)]
  simp [valDigits]

theorem reprList_injective {m n : Nat} (h : (Nat.repr m).toList = (Nat.repr n).toList) : m = n := by
  have := congrArg valDigits h
  rwa [repr_val, repr_val] at this

theorem toDigitsCore_digits : ∀ (f n : Nat) (ds : List Char), (∀ c ∈ ds, c.isDigit = true) →
    ∀ c ∈ Nat.toDigitsCore 10 f n ds, c.isDigit = true := by
  intro f
  induction f with
  | zero => intro n ds hds; exact hds
  | succ f ih =>
    intro n ds hds
    unfold Nat.toDigitsCore
    have hd : ∀ c ∈ Nat.digitChar (n % 10) :: ds, c.isDigit = true := by
      intro c hc
      rcases List.mem_cons.mp hc with h1 | h1
      · rw [h1]; exact isDigit_digitChar _ (Nat.mod_lt _ (by norm_num))
      · exact hds c h1
    by_cases h0 : n / 10 = 0
    · simp only [h0, if_true]
      exact hd
    · simp only [h0, if_false]
      exact ih (n / 10) _ hd

theorem repr_digits (n : Nat) : ∀ c ∈ (Nat.repr n).toList, c.isDigit = true := by
  show ∀ c ∈ Nat.toDigitsCore 10 (n + 1) n [], c.isDigit = true
  exact toDigitsCore_digits (n + 1) n [] (by intro c hc; cases hc)

theorem candSuffix_injective (base : List Char) {x y : Nat}
    (h : base ++ '_' :: (Nat.repr x).toList = base ++ '_' :: (Nat.repr y).toList) : x = y := by
  have h2 := List.append_cancel_left h
  have h3 : (Nat.repr x).toList = (Nat.repr y).toList := by
    injection h2
  exact reprList_injective h3

theorem dedup_exists (base : List Char) (taken : List (List Char)) (s : Nat) :
    ∃ j, j < taken.length + 1 ∧ (base ++ '_' :: (Nat.repr (s + j)).toList) ∉ taken := by
  by_contra hcon
  push_neg at hcon
  have hinj : Function.Injective (fun j : Fin (taken.length + 1) =>
      base ++ '_' :: (Nat.repr (s + (j : Nat))).toList) := by
    intro a b hab
    have := candSuffix_injective base hab
    exact Fin.ext (by omega)
  have hsub : Finset.image (fun j : Fin (taken.length + 1) =>
      base ++ '_' :: (Nat.repr (s + (j : Nat))).toList) Finset.univ ⊆ taken.toFinset := by
    intro x hx
    rcases Finset.mem_image.mp hx with ⟨j, _, hj⟩
    rw [List.mem_toFinset]
    exact hj ▸ hcon (j : Nat) j.isLt
  have hcard : (Finset.image (fun j : Fin (taken.length + 1) =>
      base ++ '_' :: (Nat.repr (s + (j : Nat))).toList) Finset.univ).card = taken.length + 1 := by
    rw [Finset.card_image_of_injective _ hinj, Finset.card_univ, Fintype.card_fin]
  have hle := Finset.card_le_card hsub
  have hfin := List.toFinset_card_le taken
  omega

theorem contains_iff_mem (taken : List (List Char)) (x : List Char) :
    taken.contains x = true ↔ x ∈ taken := by
  simp [List.contains, List.elem_iff]

theorem dedupAux_not_mem (base : List Char) (taken : List (List Char)) :
    ∀ (fuel s : Nat), (∃ j, j < fuel ∧ (base ++ '_' :: (Nat.repr (s + j)).toList) ∉ taken) →
      dedupAux base taken fuel s ∉ taken := by
  intro fuel
  induction fuel with
  | zero =>
    intro s h
    obtain ⟨j, hj, _⟩ := h
    omega
  | succ fuel ih =>
    intro s h
    obtain ⟨j, hj, hfree⟩ := h
    unfold dedupAux
    by_cases hc : taken.contains (base ++ '_' :: (Nat.repr s).toList) = true
    · simp only [hc, if_true]
      cases j with
      | zero =>
        exact absurd ((contains_iff_mem taken _).mp hc)
          (by simpa using hfree)
      | succ j2 =>
        exact ih (s + 1) ⟨j2, by omega, by
          have : s + 1 + j2 = s + (j2 + 1) := by omega
          rw [this]
          exact hfree⟩
    · simp only [hc, if_false]
      intro hmem
      exact hc ((contains_iff_mem taken _).mpr hmem)

theorem dedupAux_shape (base : List Char) (taken : List (List Char)) :
    ∀ (fuel s : Nat), ∃ j, dedupAux base taken fuel s = base ++ '_' :: (Nat.repr j).toList := by
  intro fuel
  induction fuel with
  | zero => intro s; exact ⟨s, rfl⟩
  | succ fuel ih =>
    intro s
    unfold dedupAux
    by_cases hc : taken.contains (base ++ '_' :: (Nat.repr s).toList) = true
    · simp only [hc, if_true]
      exact ih (s + 1)
    · simp only [hc, if_false]
      exact ⟨s, rfl⟩

theorem dedupName_not_mem (base : List Char) (taken : List (List Char)) :
    dedupName base taken ∉ taken := by
  unfold dedupName
  by_cases hc : taken.contains base = true
  · simp only [hc, if_true]
    obtain ⟨j, hj, hfree⟩ := dedup_exists base taken 1
    exact dedupAux_not_mem base taken (taken.length + 1) 1 ⟨j, hj, hfree⟩
  · simp only [hc, if_false]
    intro hmem
    exact hc ((contains_iff_mem taken _).mpr hmem)

theorem dedupName_shape (base : List Char) (taken : List (List Char)) :
    dedupName base taken = base ∨ ∃ j, dedupName base taken = base ++ '_' :: (Nat.repr j).toList := by
  unfold dedupName
  by_cases hc : taken.contains base = true
  · simp only [hc, if_true]
    exact Or.inr (dedupAux_shape base taken (taken.length + 1) 1)
  · simp only [hc, if_false]
    exact Or.inl rfl

theorem toNat_ofNat_valid {n : Nat} (h : n.isValidChar) : (Char.ofNat n).toNat = n := by
  rw [Char.ofNat, dif_pos h]
  simp [Char.ofNatAux, Char.toNat, UInt32.toNat]

theorem toLower_eq_self {c : Char} (h : c.isUpper = false) : c.toLower = c := by
  unfold Char.toLower
  suffices hn : ¬(c.toNat ≥ 65 ∧ c.toNat ≤ 90) by simp [hn]
  intro hcon
  unfold Char.isUpper at h
  simp only [Bool.and_eq_false_iff, decide_eq_false_iff_not] at h
  rcases h with h1 | h1
  · rw [UInt32.not_le] at h1
    have := UInt32.toNat_lt_of_lt (by norm_num : (65:Nat) < UInt32.size) h1
    have hc : c.toNat = c.val.toNat := rfl
    omega
  · rw [UInt32.not_le] at h1
    have := UInt32.lt_toNat_of_lt (by norm_num : (90:Nat) < UInt32.size) h1
    have hc : c.toNat = c.val.toNat := rfl
    omega

theorem toLower_not_upper (c : Char) : c.toLower.isUpper = false := by
  unfold Char.toLower
  by_cases h : c.toNat ≥ 65 ∧ c.toNat ≤ 90
  · rw [if_pos h]
    have hv : (c.toNat + 32).isValidChar := Or.inl (by unfold Char.toNat at h ⊢; omega)
    have ht : (Char.ofNat (c.toNat + 32)).toNat = c.toNat + 32 := toNat_ofNat_valid hv
    unfold Char.isUpper
    simp only [Bool.and_eq_false_iff]
    right
    simp only [decide_eq_false_iff_not]
    intro hle
    have := UInt32.toNat_le_of_le (by norm_num : (90:Nat) < UInt32.size) hle
    have hc : (Char.ofNat (c.toNat + 32)).toNat = (Char.ofNat (c.toNat + 32)).val.toNat := rfl
    omega
  · rw [if_neg h]
    unfold Char.isUpper
    simp only [Bool.and_eq_false_iff]
    by_contra hcon
    simp only [not_or, Bool.not_eq_false, decide_eq_true_eq] at hcon
    obtain ⟨h1, h2⟩ := hcon
    have hb1 := UInt32.le_toNat_of_le (by norm_num : (65:Nat) < UInt32.size) h1
    have hb2 := UInt32.toNat_le_of_le (by norm_num : (90:Nat) < UInt32.size) h2
    have hc : c.toNat = c.val.toNat := rfl
    omega

theorem isDigit_not_upper {c : Char} (h : c.isDigit = true) : c.isUpper = false := by
  unfold Char.isDigit at h
  unfold Char.isUpper
  simp only [Bool.and_eq_true, decide_eq_true_eq] at h
  simp only [Bool.and_eq_false_iff]
  left
  simp only [decide_eq_false_iff_not]
  intro h65
  have := UInt32.le_trans h65 h.2
  exact absurd this (by decide)

theorem isDigit_safeC {c : Char} (h : c.isDigit = true) : isSafeC c = true := by
  simp [isSafeC, Char.isAlphanum, h]

theorem lookupG_mem {β : Type} {l : List (List Char × β)} {k : List Char} {v : β}
    (h : l.lookup k = some v) : (k, v) ∈ l := by
  induction l with
  | nil => cases h
  | cons p rest ih =>
    obtain ⟨k0, v0⟩ := p
    rw [List.lookup_cons] at h
    by_cases hk : k = k0
    · subst hk
      simp only [beq_self_eq_true] at h
      injection h with hv
      subst hv
      exact List.mem_cons_self _ _
    · have hb : (k == k0) = false := beq_eq_false_iff_ne.mpr hk
      simp only [hb] at h
      exact List.mem_cons_of_mem _ (ih h)

theorem lookupG_none {β : Type} {l : List (List Char × β)} {k : List Char} :
    l.lookup k = none ↔ k ∉ l.map (fun p => p.1) := by
  induction l with
  | nil => simp
  | cons p rest ih =>
    obtain ⟨k0, v0⟩ := p
    rw [List.lookup_cons]
    by_cases hk : k = k0
    · subst hk
      simp only [beq_self_eq_true, List.map_cons]
      constructor
      · intro h; cases h
      · intro h; exact absurd (List.mem_cons_self _ _) h
    · have hb : (k == k0) = false := beq_eq_false_iff_ne.mpr hk
      simp only [hb, List.map_cons, List.mem_cons]
      rw [ih]
      constructor
      · intro h1 h2
        rcases h2 with h2 | h2
        · exact hk h2
        · exact h1 h2
      · intro h1 h2
        exact h1 (Or.inr h2)

theorem lookupG_append {β : Type} (xs ys : List (List Char × β)) (k : List Char) :
    (xs ++ ys).lookup k =
      match xs.lookup k with
      | some v => some v
      | none => ys.lookup k := by
  induction xs with
  | nil => rfl
  | cons p rest ih =>
    obtain ⟨k0, v0⟩ := p
    by_cases hk : k = k0
    · subst hk; simp [List.lookup_cons]
    · have hb : (k == k0) = false := beq_eq_false_iff_ne.mpr hk
      simp [List.lookup_cons, hb, ih]

theorem map_fix {l : List Char} {f : Char → Char} (h : ∀ c ∈ l, f c = c) : l.map f = l := by
  induction l with
  | nil => rfl
  | cons c rest ih =>
    simp only [List.map_cons]
    rw [h c (List.mem_cons_self _ _), ih (fun d hd => h d (List.mem_cons_of_mem _ hd))]

theorem nodup_snd_inj {β : Type} [DecidableEq β] {l : List (List Char × β)}
    (hnd : (l.map (fun p => p.2)).Nodup) {k1 k2 : List Char} {v : β}
    (h1 : (k1, v) ∈ l) (h2 : (k2, v) ∈ l) : k1 = k2 := by
  induction l with
  | nil => cases h1
  | cons p rest ih =>
    simp only [List.map_cons, List.nodup_cons] at hnd
    rcases List.mem_cons.mp h1 with e1 | e1 <;> rcases List.mem_cons.mp h2 with e2 | e2
    · rw [← e1] at e2; injection e2 with ha _; exact ha.symm
    · exfalso
      apply hnd.1
      have : v = p.2 := by rw [← e1]
      rw [← this]
      exact List.mem_map.mpr ⟨(k2, v), e2, rfl⟩
    · exfalso
      apply hnd.1
      have : v = p.2 := by rw [← e2]
      rw [← this]
      exact List.mem_map.mpr ⟨(k1, v), e1, rfl⟩
    · exact ih hnd.2 e1 e2

theorem lookup_swap_roundtrip {l : List (List Char × List Char)}
    (hnd : (l.map (fun p => p.2)).Nodup) {n id2 : List Char}
    (h : l.lookup n = some id2) :
    (l.map (fun p => (p.2, p.1))).lookup id2 = some n := by
  induction l with
  | nil => cases h
  | cons p rest ih =>
    obtain ⟨k0, v0⟩ := p
    simp only [List.map_cons, List.nodup_cons] at hnd
    rw [List.lookup_cons] at h
    by_cases hk : n = k0
    · subst hk
      simp only [beq_self_eq_true] at h
      injection h with hv
      subst hv
      simp [List.lookup_cons, beq_self_eq_true]
    · have hb : (n == k0) = false := beq_eq_false_iff_ne.mpr hk
      simp only [hb] at h
      have hmem : (n, id2) ∈ rest := lookupG_mem h
      have hne : id2 ≠ v0 := by
        intro he
        apply hnd.1
        rw [← he]
        exact List.mem_map.mpr ⟨(n, id2), hmem, rfl⟩
      have hb2 : (id2 == v0) = false := beq_eq_false_iff_ne.mpr hne
      simp only [List.map_cons, List.lookup_cons, hb2]
      exact ih hnd.2 h

theorem sanitize_chars (name : List Char) :
    ∀ c ∈ sanitizeName name, isSafeC c = true ∧ c.isUpper = false := by
  intro c hc
  unfold sanitizeName at hc
  rcases List.mem_map.mp hc with ⟨d, hd, hfc⟩
  rcases List.mem_map.mp hd with ⟨o, _, hlo⟩
  by_cases hs : isSafeC d = true
  · rw [if_pos hs] at hfc
    subst hfc
    refine ⟨hs, ?_⟩
    rw [← hlo]
    exact toLower_not_upper o
  · rw [if_neg hs] at hfc
    subst hfc
    exact ⟨by decide, by decide⟩

theorem append_suffix_ok {base : List Char} (hs : isSafeIdent base = true)
    (hu : base.all (fun c => !c.isUpper) = true) (j : Nat) :
    isSafeIdent (base ++ '_' :: (Nat.repr j).toList) = true
    ∧ (base ++ '_' :: (Nat.repr j).toList).all (fun c => !c.isUpper) = true := by
  have hdig1 : ((Nat.repr j).toList).all isSafeC = true :=
    List.all_eq_true.mpr (fun c hc => isDigit_safeC (repr_digits j c hc))
  have hdig2 : ((Nat.repr j).toList).all (fun c => !c.isUpper) = true :=
    List.all_eq_true.mpr (fun c hc => by
      rw [isDigit_not_upper (repr_digits j c hc)]; rfl)
  cases base with
  | nil => simp [isSafeIdent] at hs
  | cons c rest =>
    unfold isSafeIdent at hs ⊢
    simp only [List.cons_append]
    simp only [Bool.and_eq_true] at hs hu ⊢
    rw [List.all_cons] at hu
    simp only [Bool.and_eq_true] at hu
    refine ⟨⟨hs.1, ?_⟩, ?_⟩
    · rw [List.all_append, List.all_cons]
      simp only [Bool.and_eq_true]
      exact ⟨hs.2, by decide, hdig1⟩
    · rw [List.all_cons, List.all_append, List.all_cons]
      simp only [Bool.and_eq_true]
      exact ⟨hu.1, hu.2, by decide, hdig2⟩

theorem candidate_ok (counter : Nat) (name : List Char) :
    isSafeIdent (candidateName counter name).1 = true
    ∧ (candidateName counter name).1.all (fun c => !c.isUpper) = true := by
  have hdig1 : ((Nat.repr counter).toList).all isSafeC = true :=
    List.all_eq_true.mpr (fun c hc => isDigit_safeC (repr_digits counter c hc))
  have hdig2 : ((Nat.repr counter).toList).all (fun c => !c.isUpper) = true :=
    List.all_eq_true.mpr (fun c hc => by
      rw [isDigit_not_upper (repr_digits counter c hc)]; rfl)
  unfold candidateName
  by_cases he : sanitizeName name = []
  · simp only [he, if_true]
    constructor
    · show isSafeIdent ('s' :: ("heet_".toList ++ (Nat.repr counter).toList)) = true
      unfold isSafeIdent
      simp only [Bool.and_eq_true]
      refine ⟨by decide, ?_⟩
      rw [List.all_append]
      simp only [Bool.and_eq_true]
      exact ⟨by decide, hdig1⟩
    · show (('s' :: "heet_".toList) ++ (Nat.repr counter).toList).all (fun c => !c.isUpper) = true
      rw [List.all_append]
      simp only [Bool.and_eq_true]
      exact ⟨by decide, hdig2⟩
  · rcases List.exists_cons_of_ne_nil he with ⟨c, rest, hcr⟩
    have hchars := sanitize_chars name
    rw [hcr] at hchars
    have hall : (c :: rest).all isSafeC = true :=
      List.all_eq_true.mpr (fun d hd => (hchars d hd).1)
    have hupp : (c :: rest).all (fun d => !d.isUpper) = true :=
      List.all_eq_true.mpr (fun d hd => by rw [(hchars d hd).2]; rfl)
    rw [hcr, if_neg (List.cons_ne_nil c rest)]
    by_cases ha : c.isAlpha = true
    · rw [show (match c :: rest with | c :: _ => c.isAlpha | [] => false) = c.isAlpha from rfl, ha]
      simp only [Bool.not_true, Bool.false_eq_true, if_false]
      constructor
      · unfold isSafeIdent
        simp only [Bool.and_eq_true]
        rw [List.all_cons] at hall
        simp only [Bool.and_eq_true] at hall
        exact ⟨by simp [ha], hall.2⟩
      · exact hupp
    · have ha2 : c.isAlpha = false := by simpa using ha
      rw [show (match c :: rest with | c :: _ => c.isAlpha | [] => false) = c.isAlpha from rfl, ha2]
      simp only [Bool.not_false, if_true]
      constructor
      · show isSafeIdent ('s' :: ('_' :: (c :: rest))) = true
        unfold isSafeIdent
        simp only [Bool.and_eq_true]
        refine ⟨by decide, ?_⟩
        rw [List.all_cons]
        simp only [Bool.and_eq_true]
        exact ⟨by decide, hall⟩
      · show (('s' :: ['_']) ++ (c :: rest)).all (fun d => !d.isUpper) = true
        rw [List.all_append]
        simp only [Bool.and_eq_true]
        exact ⟨by decide, hupp⟩

theorem addSheet_ok (st : MapperState) (hinv : mapperInv st) (name : List Char) :
    mapperInv (addSheet st name).2
    ∧ isSafeIdent (addSheet st name).1 = true
    ∧ (addSheet st name).1.all (fun c => !c.isUpper) = true := by
  obtain ⟨hrev, hkeys, hvals, hwf⟩ := hinv
  unfold addSheet
  cases hl : st.nameMap.lookup name with
  | some s =>
    have hmem := lookupG_mem hl
    exact ⟨⟨hrev, hkeys, hvals, hwf⟩, (hwf (name, s) hmem).1, (hwf (name, s) hmem).2⟩
  | none =>
    have hkeys_eq : st.revMap.map (fun p => p.1) = st.nameMap.map (fun p => p.2) := by
      rw [hrev, List.map_map]
      rfl
    have hcand := candidate_ok st.counter name
    have hsafe_props : isSafeIdent (dedupName (candidateName st.counter name).1
          (st.revMap.map (fun p => p.1))) = true
        ∧ (dedupName (candidateName st.counter name).1
          (st.revMap.map (fun p => p.1))).all (fun c => !c.isUpper) = true := by
      rcases dedupName_shape (candidateName st.counter name).1 (st.revMap.map (fun p => p.1)) with hsh | ⟨j, hsh⟩
      · rw [hsh]; exact hcand
      · rw [hsh]; exact append_suffix_ok hcand.1 hcand.2 j
    have hfresh : dedupName (candidateName st.counter name).1 (st.revMap.map (fun p => p.1)) ∉
        st.nameMap.map (fun p => p.2) := by
      rw [← hkeys_eq]
      exact dedupName_not_mem _ _
    have hnamefresh : name ∉ st.nameMap.map (fun p => p.1) := lookupG_none.mp hl
    refine ⟨⟨?_, ?_, ?_, ?_⟩, hsafe_props.1, hsafe_props.2⟩
    · simp only [List.map_append, hrev]
      rfl
    · rw [List.map_append, List.nodup_append]
      refine ⟨hkeys, List.nodup_singleton _, ?_⟩
      intro a ha hb
      simp only [List.map_cons, List.map_nil, List.mem_singleton] at hb
      rw [hb] at ha
      exact hnamefresh ha
    · rw [List.map_append, List.nodup_append]
      refine ⟨hvals, List.nodup_singleton _, ?_⟩
      intro a ha hb
      simp only [List.map_cons, List.map_nil, List.mem_singleton] at hb
      rw [hb] at ha
      exact hfresh ha
    · intro p hp
      rcases List.mem_append.mp hp with hmem | hmem
      · exact hwf p hmem
      · simp only [List.mem_singleton] at hmem
        rw [hmem]
        exact ⟨hsafe_props.1, hsafe_props.2⟩

theorem emptyMapper_inv : mapperInv emptyMapper := by
  refine ⟨rfl, List.nodup_nil, List.nodup_nil, ?_⟩
  intro p hp
  cases hp

theorem foldl_inv (names : List (List Char)) :
    ∀ st, mapperInv st → mapperInv (names.foldl (fun st n => (addSheet st n).2) st) := by
  induction names with
  | nil => intro st h; exact h
  | cons n rest ih =>
    intro st h
    exact ih _ (addSheet_ok st h n).1

theorem runMapper_inv (names : List (List Char)) : mapperInv (runMapper names) :=
  foldl_inv names emptyMapper emptyMapper_inv

/-- C7: over any sequence of registrations — distinct registered names map
to identifiers distinct even case-insensitively; `register` is idempotent
(a second call returns the same identifier and leaves the state
unchanged); every returned identifier matches `^[A-Za-z_][A-Za-z0-9_]*$`;
and the mapping is a bijection: the reverse map resolves each generated
identifier back to its original name. -/
theorem c7_mapper_invariants :
    (∀ names n, isSafeIdent (addSheet (runMapper names) n).1 = true)
    ∧ (∀ names n, addSheet (addSheet (runMapper names) n).2 n = addSheet (runMapper names) n)
    ∧ (∀ names n1 n2 id1 id2, n1 ≠ n2 →
        (runMapper names).nameMap.lookup n1 = some id1 →
        (runMapper names).nameMap.lookup n2 = some id2 →
        id1 ≠ id2 ∧ id1.map Char.toLower ≠ id2.map Char.toLower)
    ∧ (∀ names n id2, (runMapper names).nameMap.lookup n = some id2 →
        (runMapper names).revMap.lookup id2 = some n) := by
  have hlower : ∀ names n id2, (runMapper names).nameMap.lookup n = some id2 →
      id2.map Char.toLower = id2 := by
    intro names n id2 h
    have hinv := runMapper_inv names
    have hwf := hinv.2.2.2 (n, id2) (lookupG_mem h)
    exact map_fix (fun c hc => by
      have := List.all_eq_true.mp hwf.2 c hc
      simp only [Bool.not_eq_true'] at this
      exact toLower_eq_self this)
  refine ⟨?_, ?_, ?_, ?_⟩
  · intro names n
    exact (addSheet_ok (runMapper names) (runMapper_inv names) n).2.1
  · intro names n
    set st := runMapper names with hst
    show addSheet (addSheet st n).2 n = addSheet st n
    unfold addSheet
    cases hl : st.nameMap.lookup n with
    | some s => simp only [hl]
    | none =>
      simp only [hl]
      have hlook2 : (st.nameMap ++ [(n, dedupName (candidateName st.counter n).1
          (st.revMap.map (fun p => p.1)))]).lookup n =
          some (dedupName (candidateName st.counter n).1 (st.revMap.map (fun p => p.1))) := by
        rw [lookupG_append, hl]
        simp [List.lookup_cons, beq_self_eq_true]
      simp only [hlook2]
  · intro names n1 n2 id1 id2 hne h1 h2
    have hinv := runMapper_inv names
    have hne2 : id1 ≠ id2 := by
      intro he
      exact hne (nodup_snd_inj hinv.2.2.1 (lookupG_mem h1) (he ▸ lookupG_mem h2))
    refine ⟨hne2, ?_⟩
    rw [hlower names n1 id1 h1, hlower names n2 id2 h2]
    exact hne2
  · intro names n id2 h
    have hinv := runMapper_inv names
    rw [hinv.1]
    exact lookup_swap_roundtrip hinv.2.2.1 h

/-- C7, witness: the invariant components at a concrete registration
sequence containing a case-insensitive collision. -/
theorem c7_witness :
    isSafeIdent (addSheet (runMapper ["Sheet1".toList, "SHEET1".toList]) "x y".toList).1 = true
    ∧ addSheet (addSheet (runMapper ["Sheet1".toList, "SHEET1".toList]) "x y".toList).2 "x y".toList =
        addSheet (runMapper ["Sheet1".toList, "SHEET1".toList]) "x y".toList
    ∧ ("sheet1".toList ≠ "sheet1_1".toList
        ∧ "sheet1".toList.map Char.toLower ≠ "sheet1_1".toList.map Char.toLower)
    ∧ (runMapper ["Sheet1".toList, "SHEET1".toList]).revMap.lookup "sheet1_1".toList =
        some "SHEET1".toList := by
  refine ⟨c7_mapper_invariants.1 _ _, c7_mapper_invariants.2.1 _ _, ?_, ?_⟩
  · exact c7_mapper_invariants.2.2.1 ["Sheet1".toList, "SHEET1".toList]
      "Sheet1".toList "SHEET1".toList "sheet1".toList "sheet1_1".toList
      (by decide) (by rfl) (by rfl)
  · exact c7_mapper_invariants.2.2.2 ["Sheet1".toList, "SHEET1".toList]
      "SHEET1".toList "sheet1_1".toList (by rfl)

theorem rwOut_quote (tbl : List (List Char × List Char)) (r : List Char) :
    rwOut tbl ('\'' :: r) = '\'' :: rwSingle tbl r := rfl

theorem rwOut_dq (tbl : List (List Char × List Char)) (r : List Char) :
    rwOut tbl ('"' :: r) = rwIdent tbl r [] := rfl

theorem rwOut_other (tbl : List (List Char × List Char)) (c : Char) (r : List Char)
    (h1 : c ≠ '\'') (h2 : c ≠ '"') :
    rwOut tbl (c :: r) = c :: rwOut tbl r := by
  conv_lhs => rw [rwOut.eq_def]
  split
  · rename_i heq; cases heq
  · rename_i heq; injection heq with h3 h4; exact absurd h3 h1
  · rename_i heq; injection heq with h3 h4; exact absurd h3 h2
  · rename_i h5 h6 heq2; injection heq2 with h3 h4; rw [h3, h4]

theorem rwSingle_qq (tbl : List (List Char × List Char)) (r : List Char) :
    rwSingle tbl ('\'' :: '\'' :: r) = '\'' :: '\'' :: rwSingle tbl r := rfl

theorem rwSingle_q_nil (tbl : List (List Char × List Char)) :
    rwSingle tbl ['\''] = ['\''] := rfl

theorem rwSingle_q1 (tbl : List (List Char × List Char)) (c : Char) (r : List Char)
    (h : c ≠ '\'') :
    rwSingle tbl ('\'' :: c :: r) = '\'' :: rwOut tbl (c :: r) := by
  conv_lhs => rw [rwSingle.eq_def]
  split
  · rename_i heq; cases heq
  · rename_i heq; injection heq with h3 h4; injection h4 with h5 h6; exact absurd h5 h
  · rename_i h5 heq2; injection heq2 with h3 h4; rw [h4]
  · rename_i h5 h6 heq2; injection heq2 with h3 h4; exact (h6 h3.symm).elim

theorem rwSingle_other (tbl : List (List Char × List Char)) (c : Char) (r : List Char)
    (h : c ≠ '\'') :
    rwSingle tbl (c :: r) = c :: rwSingle tbl r := by
  conv_lhs => rw [rwSingle.eq_def]
  split
  · rename_i heq; cases heq
  · rename_i heq; injection heq with h3 h4; exact absurd h3 h
  · rename_i heq; injection heq with h3 h4; exact absurd h3 h
  · rename_i h5 heq2; injection heq2 with h3 h4; rw [h3, h4]

theorem rwIdent_nil (tbl : List (List Char × List Char)) (b : List Char) :
    rwIdent tbl [] b = '"' :: escD b.reverse := rfl

theorem rwIdent_qq (tbl : List (List Char × List Char)) (r b : List Char) :
    rwIdent tbl ('"' :: '"' :: r) b = rwIdent tbl r ('"' :: b) := rfl

theorem rwIdent_close_nil (tbl : List (List Char × List Char)) (b : List Char) :
    rwIdent tbl ['"'] b = emitIdent tbl b.reverse ++ rwOut tbl [] := rfl

theorem rwIdent_close (tbl : List (List Char × List Char)) (c : Char) (r b : List Char)
    (h : c ≠ '"') :
    rwIdent tbl ('"' :: c :: r) b = emitIdent tbl b.reverse ++ rwOut tbl (c :: r) := by
  conv_lhs => rw [rwIdent.eq_def]
  split
  · rename_i heq; cases heq
  · rename_i heq; injection heq with h3 h4; injection h4 with h5 h6; exact absurd h5 h
  · rename_i h5 heq2; injection heq2 with h3 h4; rw [h4]
  · rename_i h5 h6 heq2; injection heq2 with h3 h4; exact (h6 h3.symm).elim

theorem rwIdent_other (tbl : List (List Char × List Char)) (c : Char) (r b : List Char)
    (h : c ≠ '"') :
    rwIdent tbl (c :: r) b = rwIdent tbl r (c :: b) := by
  conv_lhs => rw [rwIdent.eq_def]
  split
  · rename_i heq; cases heq
  · rename_i heq; injection heq with h3 h4; exact absurd h3 h
  · rename_i heq; injection heq with h3 h4; exact absurd h3 h
  · rename_i h5 heq2; injection heq2 with h3 h4; rw [h3, h4]

theorem noDQ_f_q (r : List Char) : noDQAux false ('\'' :: r) = noDQAux true r := rfl

theorem noDQ_t_qq (r : List Char) : noDQAux true ('\'' :: '\'' :: r) = noDQAux true r := rfl

theorem noDQ_f_other (c : Char) (r : List Char) (h1 : c ≠ '"') (h2 : c ≠ '\'') :
    noDQAux false (c :: r) = noDQAux false r := by
  conv_lhs => rw [noDQAux.eq_def]
  split <;> simp_all

theorem noDQ_t_q1 (c : Char) (r : List Char) (h : c ≠ '\'') :
    noDQAux true ('\'' :: c :: r) = noDQAux false (c :: r) := by
  conv_lhs => rw [noDQAux.eq_def]
  split <;> simp_all <;> (rename_i hx heq; exact absurd heq.1.symm hx)

theorem noDQ_t_other (c : Char) (r : List Char) (h : c ≠ '\'') :
    noDQAux true (c :: r) = noDQAux true r := by
  conv_lhs => rw [noDQAux.eq_def]
  split <;> simp_all

theorem takeLit_qq (r : List Char) :
    takeLit ('\'' :: '\'' :: r) = ('\'' :: '\'' :: (takeLit r).1, (takeLit r).2) := rfl

theorem takeLit_q_nil : takeLit ['\''] = (['\''], []) := rfl

theorem takeLit_q1 (c : Char) (r : List Char) (h : c ≠ '\'') :
    takeLit ('\'' :: c :: r) = (['\''], c :: r) := by
  conv_lhs => rw [takeLit.eq_def]
  split <;> simp_all <;> (rename_i hx heq; exact absurd heq.1.symm hx)

theorem takeLit_other (c : Char) (r : List Char) (h : c ≠ '\'') :
    takeLit (c :: r) = (c :: (takeLit r).1, (takeLit r).2) := by
  conv_lhs => rw [takeLit.eq_def]
  split <;> simp_all

theorem noDQ_f_dq (r : List Char) : noDQAux false ('"' :: r) = false := rfl

theorem noDQ_rw : ∀ (n : Nat) (tbl : List (List Char × List Char)) (s : List Char), s.length ≤ n →
    (noDQAux false s = true → rwOut tbl s = s) ∧ (noDQAux true s = true → rwSingle tbl s = s) := by
  intro n
  induction n with
  | zero =>
    intro tbl s hlen
    have hs : s = [] := List.eq_nil_of_length_eq_zero (by omega)
    subst hs
    exact ⟨fun _ => rfl, fun _ => rfl⟩
  | succ n ih =>
    intro tbl s hlen
    cases s with
    | nil => exact ⟨fun _ => rfl, fun _ => rfl⟩
    | cons c rest =>
      simp only [List.length_cons] at hlen
      constructor
      · intro hq
        by_cases hc1 : c = '\''
        · subst hc1
          rw [noDQ_f_q] at hq
          rw [rwOut_quote, (ih tbl rest (by omega)).2 hq]
        · by_cases hc2 : c = '"'
          · subst hc2
            rw [noDQ_f_dq] at hq
            cases hq
          · rw [noDQ_f_other c rest hc2 hc1] at hq
            rw [rwOut_other tbl c rest hc1 hc2, (ih tbl rest (by omega)).1 hq]
      · intro hq
        by_cases hc1 : c = '\''
        · subst hc1
          cases rest with
          | nil => exact rwSingle_q_nil tbl
          | cons d rest2 =>
            simp only [List.length_cons] at hlen
            by_cases hd : d = '\''
            · subst hd
              rw [noDQ_t_qq] at hq
              rw [rwSingle_qq, (ih tbl rest2 (by omega)).2 hq]
            · rw [noDQ_t_q1 d rest2 hd] at hq
              rw [rwSingle_q1 tbl d rest2 hd, (ih tbl (d :: rest2) (by simp; omega)).1 hq]
        · rw [noDQ_t_other c rest hc1] at hq
          rw [rwSingle_other tbl c rest hc1, (ih tbl rest (by omega)).2 hq]

theorem rwSingle_verbatim : ∀ (n : Nat) (tbl : List (List Char × List Char)) (s : List Char), s.length ≤ n →
    rwSingle tbl s = (takeLit s).1 ++ rwOut tbl (takeLit s).2 := by
  intro n
  induction n with
  | zero =>
    intro tbl s hlen
    have hs : s = [] := List.eq_nil_of_length_eq_zero (by omega)
    subst hs
    rfl
  | succ n ih =>
    intro tbl s hlen
    cases s with
    | nil => rfl
    | cons c rest =>
      simp only [List.length_cons] at hlen
      by_cases hc1 : c = '\''
      · subst hc1
        cases rest with
        | nil => rfl
        | cons d rest2 =>
          simp only [List.length_cons] at hlen
          by_cases hd : d = '\''
          · subst hd
            rw [rwSingle_qq, takeLit_qq, ih tbl rest2 (by omega)]
            rfl
          · rw [rwSingle_q1 tbl d rest2 hd, takeLit_q1 d rest2 hd]
            rfl
      · rw [rwSingle_other tbl c rest hc1, takeLit_other c rest hc1, ih tbl rest (by omega)]
        rfl

theorem escD_dq (r : List Char) : escD ('"' :: r) = '"' :: '"' :: escD r := rfl

theorem escD_other (c : Char) (r : List Char) (h : c ≠ '"') :
    escD (c :: r) = c :: escD r := by
  conv_lhs => rw [escD.eq_def]
  split <;> simp_all

theorem safeC_no_quotes {c : Char} (h : isSafeC c = true) : c ≠ '\'' ∧ c ≠ '"' := by
  constructor <;> intro he <;> subst he <;> simp [isSafeC, Char.isAlphanum, Char.isAlpha, Char.isUpper, Char.isLower, Char.isDigit] at h

theorem safeHead_no_quotes {c : Char} (h : (c.isAlpha || c = '_') = true) : c ≠ '\'' ∧ c ≠ '"' := by
  constructor <;> intro he <;> subst he <;> simp [Char.isAlpha, Char.isUpper, Char.isLower] at h

theorem safeIdent_no_quotes {al : List Char} (h : isSafeIdent al = true) :
    ∀ c ∈ al, c ≠ '\'' ∧ c ≠ '"' := by
  cases al with
  | nil => intro c hc; cases hc
  | cons d rest =>
    unfold isSafeIdent at h
    simp only [Bool.and_eq_true] at h
    intro c hc
    rcases List.mem_cons.mp hc with h1 | h1
    · exact h1 ▸ safeHead_no_quotes h.1
    · exact safeC_no_quotes (List.all_eq_true.mp h.2 c h1)

theorem rwOut_passthrough (tbl : List (List Char × List Char)) :
    ∀ (a X : List Char), (∀ c ∈ a, c ≠ '\'' ∧ c ≠ '"') →
      rwOut tbl (a ++ X) = a ++ rwOut tbl X := by
  intro a
  induction a with
  | nil => intro X _; rfl
  | cons c r ih =>
    intro X hq
    have hc := hq c (List.mem_cons_self _ _)
    rw [List.cons_append, rwOut_other tbl c (r ++ X) hc.1 hc.2,
      ih X (fun d hd => hq d (List.mem_cons_of_mem _ hd))]
    rfl

theorem safeIdent_ne_nil {al : List Char} (h : isSafeIdent al = true) : al ≠ [] := by
  intro he
  rw [he] at h
  simp [isSafeIdent] at h

theorem emitIdent_head (tbl : List (List Char × List Char)) (x : List Char) :
    ∃ d t, emitIdent tbl x = d :: t ∧ d ≠ '\'' := by
  unfold emitIdent
  cases hlk : tbl.lookup x with
  | none => exact ⟨'"', _, rfl, by decide⟩
  | some al =>
    by_cases hne : al.isEmpty
    · simp only [hne, Bool.not_true, Bool.false_eq_true, if_false]
      exact ⟨'"', _, rfl, by decide⟩
    · simp only [hne, Bool.not_false, if_true]
      by_cases hsafe : isSafeIdent al = true
      · rw [if_pos hsafe]
        cases al with
        | nil => exact absurd rfl (safeIdent_ne_nil hsafe)
        | cons d t =>
          refine ⟨d, t, rfl, ?_⟩
          unfold isSafeIdent at hsafe
          simp only [Bool.and_eq_true] at hsafe
          exact (safeHead_no_quotes hsafe.1).1
      · rw [if_neg hsafe]
        exact ⟨'"', _, rfl, by decide⟩

theorem rwIdent_head : ∀ (n : Nat) (tbl : List (List Char × List Char)) (s b : List Char), s.length ≤ n →
    ∃ d t, rwIdent tbl s b = d :: t ∧ d ≠ '\'' := by
  intro n
  induction n with
  | zero =>
    intro tbl s b hlen
    have hs : s = [] := List.eq_nil_of_length_eq_zero (by omega)
    subst hs
    exact ⟨'"', _, rfl, by decide⟩
  | succ n ih =>
    intro tbl s b hlen
    cases s with
    | nil => exact ⟨'"', _, rfl, by decide⟩
    | cons c rest =>
      simp only [List.length_cons] at hlen
      by_cases hc : c = '"'
      · subst hc
        cases rest with
        | nil =>
          rw [rwIdent_close_nil]
          obtain ⟨d, t, he, hd⟩ := emitIdent_head tbl b.reverse
          exact ⟨d, t ++ rwOut tbl [], by rw [he]; rfl, hd⟩
        | cons e rest2 =>
          by_cases he2 : e = '"'
          · subst he2
            rw [rwIdent_qq]
            exact ih tbl rest2 ('"' :: b) (by simp only [List.length_cons] at hlen ⊢; omega)
          · rw [rwIdent_close tbl e rest2 b he2]
            obtain ⟨d, t, he, hd⟩ := emitIdent_head tbl b.reverse
            exact ⟨d, t ++ rwOut tbl (e :: rest2), by rw [he]; rfl, hd⟩
      · rw [rwIdent_other tbl c rest b hc]
        exact ih tbl rest (c :: b) (by omega)

theorem rwOut_head_sq (tbl : List (List Char × List Char)) (s : List Char)
    (h : s = [] ∨ ∃ c r, s = c :: r ∧ c ≠ '\'') :
    rwOut tbl s = [] ∨ ∃ d t, rwOut tbl s = d :: t ∧ d ≠ '\'' := by
  rcases h with h | ⟨c, r, hs, hc⟩
  · subst h; exact Or.inl rfl
  · subst hs
    by_cases hdq : c = '"'
    · subst hdq
      rw [rwOut_dq]
      exact Or.inr (rwIdent_head r.length tbl r [] (le_refl _))
    · rw [rwOut_other tbl c r hc hdq]
      exact Or.inr ⟨c, _, rfl, hc⟩

theorem rwOut_head_dq (tbl : List (List Char × List Char)) (s : List Char)
    (h : s = [] ∨ ∃ c r, s = c :: r ∧ c ≠ '"') :
    rwOut tbl s = [] ∨ ∃ d t, rwOut tbl s = d :: t ∧ d ≠ '"' := by
  rcases h with h | ⟨c, r, hs, hc⟩
  · subst h; exact Or.inl rfl
  · subst hs
    by_cases hq : c = '\''
    · subst hq
      rw [rwOut_quote]
      exact Or.inr ⟨'\'', _, rfl, by decide⟩
    · rw [rwOut_other tbl c r hq hc]
      exact Or.inr ⟨c, _, rfl, hc⟩

theorem rwIdent_escD (tbl : List (List Char × List Char)) :
    ∀ (x b t : List Char), (t = [] ∨ ∃ c r, t = c :: r ∧ c ≠ '"') →
      rwIdent tbl (escD x ++ '"' :: t) b = emitIdent tbl (b.reverse ++ x) ++ rwOut tbl t := by
  intro x
  induction x with
  | nil =>
    intro b t ht
    rcases ht with ht | ⟨c, r, ht, hc⟩
    · subst ht
      show rwIdent tbl ['"'] b = _
      rw [rwIdent_close_nil]
      simp
    · subst ht
      show rwIdent tbl ('"' :: c :: r) b = _
      rw [rwIdent_close tbl c r b hc]
      simp
  | cons c x2 ih =>
    intro b t ht
    by_cases hc : c = '"'
    · subst hc
      rw [escD_dq, List.cons_append, List.cons_append, rwIdent_qq, ih ('"' :: b) t ht]
      have : ('"' :: b).reverse ++ x2 = b.reverse ++ '"' :: x2 := by
        simp [List.reverse_cons, List.append_assoc]
      rw [this]
    · rw [escD_other c x2 hc, List.cons_append, rwIdent_other tbl c _ b hc, ih (c :: b) t ht]
      have : (c :: b).reverse ++ x2 = b.reverse ++ c :: x2 := by
        simp [List.reverse_cons, List.append_assoc]
      rw [this]

theorem rwIdent_noClose (tbl : List (List Char × List Char)) :
    ∀ (y b2 : List Char), rwIdent tbl (escD y) b2 = '"' :: escD (b2.reverse ++ y) := by
  intro y
  induction y with
  | nil =>
    intro b2
    show rwIdent tbl [] b2 = _
    rw [rwIdent_nil]
    simp
  | cons c y2 ih =>
    intro b2
    by_cases hc : c = '"'
    · subst hc
      rw [escD_dq, rwIdent_qq, ih ('"' :: b2)]
      simp [List.append_assoc]
    · rw [escD_other c y2 hc, rwIdent_other tbl c _ b2 hc, ih (c :: b2)]
      simp [List.append_assoc]

theorem rwIdem_nil (tbl : List (List Char × List Char)) :
    rwOut tbl (rwOut tbl []) = rwOut tbl []
    ∧ rwSingle tbl (rwSingle tbl []) = rwSingle tbl []
    ∧ ∀ b, rwOut tbl (rwIdent tbl [] b) = rwIdent tbl [] b := by
  refine ⟨rfl, rfl, ?_⟩
  intro b
  rw [rwIdent_nil, rwOut_dq, rwIdent_noClose tbl b.reverse []]
  simp

theorem close_emit_idem (tbl : List (List Char × List Char))
    (H : ∀ p ∈ tbl, tbl.lookup p.2 = none) (x rest2 : List Char)
    (hrest : rest2 = [] ∨ ∃ d r, rest2 = d :: r ∧ d ≠ '"')
    (hP2 : rwOut tbl (rwOut tbl rest2) = rwOut tbl rest2) :
    rwOut tbl (emitIdent tbl x ++ rwOut tbl rest2) = emitIdent tbl x ++ rwOut tbl rest2 := by
  have htprec := rwOut_head_dq tbl rest2 hrest
  have hkeep : rwOut tbl (('"' :: (escD x ++ ['"'])) ++ rwOut tbl rest2) =
      emitIdent tbl x ++ rwOut tbl rest2 := by
    have hshape : ('"' :: (escD x ++ ['"'])) ++ rwOut tbl rest2 =
        '"' :: (escD x ++ '"' :: rwOut tbl rest2) := by
      simp [List.append_assoc]
    rw [hshape, rwOut_dq, rwIdent_escD tbl x [] _ htprec, hP2]
    simp
  cases hlk : tbl.lookup x with
  | none =>
    have hemit : emitIdent tbl x = '"' :: (escD x ++ ['"']) := by
      unfold emitIdent
      rw [hlk]
    rw [hemit, hkeep, hemit]
  | some al =>
    by_cases hne : al.isEmpty
    · have hemit : emitIdent tbl x = '"' :: (escD x ++ ['"']) := by
        unfold emitIdent
        rw [hlk]
        simp [hne]
      rw [hemit, hkeep, hemit]
    · by_cases hsafe : isSafeIdent al = true
      · have hemit : emitIdent tbl x = al := by
          unfold emitIdent
          rw [hlk]
          simp [hne, hsafe]
        rw [hemit, rwOut_passthrough tbl al _ (safeIdent_no_quotes hsafe), hP2]
      · have hemit : emitIdent tbl x = '"' :: (escD al ++ ['"']) := by
          unfold emitIdent
          rw [hlk]
          simp [hne, hsafe]
        have hlk2 : tbl.lookup al = none := H (x, al) (lookupG_mem hlk)
        have hemit2 : emitIdent tbl al = '"' :: (escD al ++ ['"']) := by
          unfold emitIdent
          rw [hlk2]
        have hshape : ('"' :: (escD al ++ ['"'])) ++ rwOut tbl rest2 =
            '"' :: (escD al ++ '"' :: rwOut tbl rest2) := by
          simp [List.append_assoc]
        rw [hemit, hshape, rwOut_dq, rwIdent_escD tbl al [] _ htprec, hP2]
        simp only [List.reverse_nil, List.nil_append]
        rw [hemit2]
        simp [List.append_assoc]

theorem rw_idem (tbl : List (List Char × List Char))
    (H : ∀ p ∈ tbl, tbl.lookup p.2 = none) :
    ∀ (n : Nat) (s : List Char), s.length ≤ n →
      rwOut tbl (rwOut tbl s) = rwOut tbl s
      ∧ rwSingle tbl (rwSingle tbl s) = rwSingle tbl s
      ∧ ∀ b, rwOut tbl (rwIdent tbl s b) = rwIdent tbl s b := by
  intro n
  induction n with
  | zero =>
    intro s hlen
    have hs : s = [] := List.eq_nil_of_length_eq_zero (by omega)
    subst hs
    exact rwIdem_nil tbl
  | succ n ih =>
    intro s hlen
    cases s with
    | nil => exact rwIdem_nil tbl
    | cons c rest =>
      simp only [List.length_cons] at hlen
      refine ⟨?_, ?_, ?_⟩
      · by_cases hq : c = '\''
        · subst hq
          rw [rwOut_quote, rwOut_quote, (ih rest (by omega)).2.1]
        · by_cases hdq : c = '"'
          · subst hdq
            rw [rwOut_dq]
            exact (ih rest (by omega)).2.2 []
          · rw [rwOut_other tbl c rest hq hdq, rwOut_other tbl c _ hq hdq,
              (ih rest (by omega)).1]
      · by_cases hq : c = '\''
        · subst hq
          cases rest with
          | nil => rfl
          | cons d r2 =>
            simp only [List.length_cons] at hlen
            by_cases hd : d = '\''
            · subst hd
              rw [rwSingle_qq, rwSingle_qq, (ih r2 (by omega)).2.1]
            · rw [rwSingle_q1 tbl d r2 hd]
              rcases rwOut_head_sq tbl (d :: r2) (Or.inr ⟨d, r2, rfl, hd⟩) with hout | ⟨e, t2, hout, he⟩
              · rw [hout]
                rfl
              · rw [hout, rwSingle_q1 tbl e t2 he, ← hout, (ih (d :: r2) (by simp; omega)).1]
        · rw [rwSingle_other tbl c rest hq, rwSingle_other tbl c _ hq,
            (ih rest (by omega)).2.1]
      · intro b
        by_cases hdq : c = '"'
        · subst hdq
          cases rest with
          | nil =>
            rw [rwIdent_close_nil]
            exact close_emit_idem tbl H b.reverse [] (Or.inl rfl) rfl
          | cons d r2 =>
            simp only [List.length_cons] at hlen
            by_cases hd : d = '"'
            · subst hd
              rw [rwIdent_qq]
              exact (ih r2 (by omega)).2.2 ('"' :: b)
            · rw [rwIdent_close tbl d r2 b hd]
              exact close_emit_idem tbl H b.reverse (d :: r2) (Or.inr ⟨d, r2, rfl, hd⟩)
                (ih (d :: r2) (by simp; omega)).1
        · rw [rwIdent_other tbl c rest b hdq]
          exact (ih rest (by omega)).2.2 (c :: b)

/-- C9: the alias rewriter leaves unchanged every input containing no
double-quote character outside single-quoted string literals; every
character inside a single-quoted literal (with doubled-quote escapes) is
emitted verbatim, the scanner resuming outside-state after the closing
quote; and rewriting twice with one alias table equals rewriting once,
provided no alias produced by the table is itself a key of the table. -/
theorem c9_rewriter_properties :
    (∀ tbl s, noDQAux false s = true → rewriteIdentifiers tbl s = s)
    ∧ (∀ tbl s, rwOut tbl ('\'' :: s) = '\'' :: ((takeLit s).1 ++ rwOut tbl (takeLit s).2))
    ∧ (∀ tbl s, (∀ p ∈ tbl, tbl.lookup p.2 = none) →
        rewriteIdentifiers tbl (rewriteIdentifiers tbl s) = rewriteIdentifiers tbl s) := by
  refine ⟨?_, ?_, ?_⟩
  · intro tbl s h
    unfold rewriteIdentifiers
    by_cases he : tbl.isEmpty
    · simp [he]
    · simp only [he, Bool.false_eq_true, if_false]
      exact (noDQ_rw s.length tbl s (le_refl _)).1 h
  · intro tbl s
    rw [rwOut_quote, rwSingle_verbatim s.length tbl s (le_refl _)]
  · intro tbl s H
    unfold rewriteIdentifiers
    by_cases he : tbl.isEmpty
    · simp [he]
    · simp only [he, Bool.false_eq_true, if_false]
      exact (rw_idem tbl H s.length s (le_refl _)).1

/-- C9, witness: the three properties at concrete inputs over a concrete
alias table (one bare-safe alias, one alias requiring re-quoting). -/
theorem c9_witness :
    rewriteIdentifiers [("My Sheet".toList, "my_sheet".toList)] "a = 'it''s \"fine\"' AND b".toList =
      "a = 'it''s \"fine\"' AND b".toList
    ∧ rwOut [("My Sheet".toList, "my_sheet".toList)] ('\'' :: "lit''eral' x".toList) =
        '\'' :: ((takeLit "lit''eral' x".toList).1 ++
          rwOut [("My Sheet".toList, "my_sheet".toList)] (takeLit "lit''eral' x".toList).2)
    ∧ rewriteIdentifiers [("My Sheet".toList, "my_sheet".toList), ("Weird".toList, "w\"x".toList)]
        (rewriteIdentifiers [("My Sheet".toList, "my_sheet".toList), ("Weird".toList, "w\"x".toList)]
          "SELECT \"My Sheet\", \"Weird\", \"Unk\" FROM \"My Sheet\" WHERE z = 'a''b \"My Sheet\"' AND \"unterm".toList) =
      rewriteIdentifiers [("My Sheet".toList, "my_sheet".toList), ("Weird".toList, "w\"x".toList)]
        "SELECT \"My Sheet\", \"Weird\", \"Unk\" FROM \"My Sheet\" WHERE z = 'a''b \"My Sheet\"' AND \"unterm".toList := by
  refine ⟨?_, ?_, ?_⟩
  · exact c9_rewriter_properties.1 _ _ (by decide)
  · exact c9_rewriter_properties.2.1 _ _
  · exact c9_rewriter_properties.2.2 _ _ (by decide)

theorem maskAux_quote (r : List Char) : maskAux ('\'' :: r) = maskIn r [] := rfl

theorem maskAux_other (c : Char) (r : List Char) (h : c ≠ '\'') :
    maskAux (c :: r) = c :: maskAux r := by
  conv_lhs => rw [maskAux.eq_def]
  split <;> simp_all

theorem maskIn_nil (b : List Char) : maskIn [] b = '\'' :: b.reverse := rfl

theorem maskIn_quote (r b : List Char) : maskIn ('\'' :: r) b = '\'' :: '\'' :: maskAux r := rfl

theorem maskIn_other (c : Char) (r b : List Char) (h : c ≠ '\'') :
    maskIn (c :: r) b = maskIn r (c :: b) := by
  conv_lhs => rw [maskIn.eq_def]
  split <;> simp_all

theorem labOut_quote (r : List Char) : labOut ('\'' :: r) = labIn r [] := rfl

theorem labOut_other (c : Char) (r : List Char) (h : c ≠ '\'') :
    labOut (c :: r) = (c, false) :: labOut r := by
  conv_lhs => rw [labOut.eq_def]
  split <;> simp_all

theorem labIn_nil (b : List Char) :
    labIn [] b = ('\'', false) :: b.reverse.map (fun c => (c, false)) := rfl

theorem labIn_quote (r b : List Char) :
    labIn ('\'' :: r) b =
      ('\'', false) :: b.reverse.map (fun c => (c, true)) ++ ('\'', false) :: labOut r := rfl

theorem labIn_other (c : Char) (r b : List Char) (h : c ≠ '\'') :
    labIn (c :: r) b = labIn r (c :: b) := by
  conv_lhs => rw [labIn.eq_def]
  split <;> simp_all

theorem forbidden_ok : ∀ t ∈ FORBIDDEN, t ≠ [] ∧ ∀ c ∈ t, c.isUpper = true := by decide

theorem quote_no_match {t : Char} (ht : t.isUpper = true) :
    decide ('\''.toUpper = t) = false := by
  rw [decide_eq_false_iff_not]
  intro he
  rw [show '\''.toUpper = '\'' from rfl] at he
  rw [← he] at ht
  exact absurd ht (by decide)

theorem hm_quote_head {tok : List Char} (hne : tok ≠ [])
    (hup : ∀ c ∈ tok, c.isUpper = true) (m : List Char) :
    hereMatch tok ('\'' :: m) = false := by
  cases tok with
  | nil => exact absurd rfl hne
  | cons t ts =>
    show (decide ('\''.toUpper = t) && hereMatch ts m) = false
    rw [quote_no_match (hup t (List.mem_cons_self _ _))]
    rfl

theorem hmL_quote_head {tok : List Char} (hne : tok ≠ [])
    (hup : ∀ c ∈ tok, c.isUpper = true) (ins : Bool) (m : List (Char × Bool)) :
    hereMatchL tok (('\'', ins) :: m) = false := by
  cases tok with
  | nil => exact absurd rfl hne
  | cons t ts =>
    show ((!ins && decide ('\''.toUpper = t)) && hereMatchL ts m) = false
    rw [quote_no_match (hup t (List.mem_cons_self _ _))]
    simp

theorem hmL_inside_head {tok : List Char} (hne : tok ≠ []) (c : Char) (m : List (Char × Bool)) :
    hereMatchL tok ((c, true) :: m) = false := by
  cases tok with
  | nil => exact absurd rfl hne
  | cons t ts => rfl

theorem scan_quote_skip {tok : List Char} (hne : tok ≠ [])
    (hup : ∀ c ∈ tok, c.isUpper = true) (p : Bool) (m : List Char) :
    wwScan tok p ('\'' :: m) = wwScan tok false m := by
  show ((!p && hereMatch tok ('\'' :: m)) || wwScan tok (isWordC '\'') m) = _
  rw [hm_quote_head hne hup]
  simp [isWordC]

theorem scanL_quote_skip {tok : List Char} (hne : tok ≠ [])
    (hup : ∀ c ∈ tok, c.isUpper = true) (p : Bool) (m : List (Char × Bool)) :
    wwScanL tok p (('\'', false) :: m) = wwScanL tok false m := by
  show ((!p && hereMatchL tok (('\'', false) :: m)) || wwScanL tok (isWordC '\'') m) = _
  rw [hmL_quote_head hne hup]
  simp [isWordC]

theorem hm_allfalse (ts : List Char) : ∀ l : List Char,
    hereMatchL ts (l.map (fun c => (c, false))) = hereMatch ts l := by
  induction ts with
  | nil =>
    intro l
    cases l with
    | nil => rfl
    | cons c r => rfl
  | cons t ts2 ih =>
    intro l
    cases l with
    | nil => rfl
    | cons c r =>
      show (!false && (decide (c.toUpper = t) && hereMatchL ts2 (r.map (fun c => (c, false))))) =
        (decide (c.toUpper = t) && hereMatch ts2 r)
      rw [ih r]
      simp

theorem scan_allfalse (tok : List Char) : ∀ (l : List Char) (p : Bool),
    wwScanL tok p (l.map (fun c => (c, false))) = wwScan tok p l := by
  intro l
  induction l with
  | nil => intro p; rfl
  | cons c r ih =>
    intro p
    show ((!p && hereMatchL tok ((c, false) :: r.map (fun c => (c, false)))) ||
        wwScanL tok (isWordC c) (r.map (fun c => (c, false)))) = _
    rw [ih (isWordC c), show ((c, false) :: r.map (fun c => (c, false))) =
      (c :: r).map (fun c => (c, false)) from rfl, hm_allfalse tok (c :: r)]
    rfl

theorem scan_inside_skip {tok : List Char} (hne : tok ≠ [])
    (hup : ∀ c ∈ tok, c.isUpper = true) :
    ∀ (buf : List Char) (p : Bool) (L : List (Char × Bool)),
      wwScanL tok p (buf.map (fun c => (c, true)) ++ ('\'', false) :: L) =
        wwScanL tok false L := by
  intro buf
  induction buf with
  | nil => intro p L; exact scanL_quote_skip hne hup p L
  | cons c buf2 ih =>
    intro p L
    show ((!p && hereMatchL tok ((c, true) :: (buf2.map (fun c => (c, true)) ++ ('\'', false) :: L))) ||
        wwScanL tok (isWordC c) (buf2.map (fun c => (c, true)) ++ ('\'', false) :: L)) = _
    rw [hmL_inside_head hne, ih (isWordC c) L]
    simp

theorem hm_bridge : ∀ (n : Nat) (ts l buf : List Char), l.length ≤ n →
    (∀ c ∈ ts, c.isUpper = true) →
    (hereMatch ts (maskAux l) = hereMatchL ts (labOut l))
    ∧ (hereMatch ts (maskIn l buf) = hereMatchL ts (labIn l buf)) := by
  intro n
  induction n with
  | zero =>
    intro ts l buf hl hts
    have hnil : l = [] := List.length_eq_zero.mp (Nat.le_zero.mp hl)
    subst hnil
    constructor
    · cases ts <;> rfl
    · rw [maskIn_nil, labIn_nil]
      cases ts with
      | nil =>
        show (!(isWordC '\'')) = (!(isWordC '\''))
        rfl
      | cons t ts2 =>
        show (decide ('\''.toUpper = t) && _) = ((!false && decide ('\''.toUpper = t)) && _)
        rw [quote_no_match (hts t (List.mem_cons_self _ _))]
        simp
  | succ n ih =>
    intro ts l buf hl hts
    constructor
    · cases l with
      | nil => cases ts <;> rfl
      | cons c r =>
        by_cases hc : c = '\''
        · subst hc
          rw [maskAux_quote, labOut_quote]
          exact (ih ts r [] (Nat.le_of_succ_le_succ hl) hts).2
        · rw [maskAux_other c r hc, labOut_other c r hc]
          cases ts with
          | nil =>
            show (!(isWordC c)) = (!(isWordC c))
            rfl
          | cons t ts2 =>
            show (decide (c.toUpper = t) && hereMatch ts2 (maskAux r)) =
              ((!false && decide (c.toUpper = t)) && hereMatchL ts2 (labOut r))
            have hts2 : ∀ x ∈ ts2, x.isUpper = true := fun x hx =>
              hts x (List.mem_cons_of_mem _ hx)
            rw [(ih ts2 r [] (Nat.le_of_succ_le_succ hl) hts2).1]
            simp
    · cases l with
      | nil =>
        rw [maskIn_nil, labIn_nil]
        cases ts with
        | nil =>
          show (!(isWordC '\'')) = (!(isWordC '\''))
          rfl
        | cons t ts2 =>
          show (decide ('\''.toUpper = t) && _) = ((!false && decide ('\''.toUpper = t)) && _)
          rw [quote_no_match (hts t (List.mem_cons_self _ _))]
          simp
      | cons c r =>
        by_cases hc : c = '\''
        · subst hc
          rw [maskIn_quote, labIn_quote]
          cases ts with
          | nil =>
            show (!(isWordC '\'')) = (!(isWordC '\''))
            rfl
          | cons t ts2 =>
            show (decide ('\''.toUpper = t) && _) = ((!false && decide ('\''.toUpper = t)) && _)
            rw [quote_no_match (hts t (List.mem_cons_self _ _))]
            simp
        · rw [maskIn_other c r _ hc, labIn_other c r _ hc]
          exact (ih ts r (c :: buf) (Nat.le_of_succ_le_succ hl) hts).2

theorem scan_bridge : ∀ (n : Nat) (tok : List Char), tok ≠ [] →
    (∀ c ∈ tok, c.isUpper = true) →
    ∀ (l buf : List Char) (p : Bool), l.length ≤ n →
    (wwScan tok p (maskAux l) = wwScanL tok p (labOut l))
    ∧ (wwScan tok p (maskIn l buf) = wwScanL tok p (labIn l buf)) := by
  intro n
  induction n with
  | zero =>
    intro tok hne hup l buf p hl
    have hnil : l = [] := List.length_eq_zero.mp (Nat.le_zero.mp hl)
    subst hnil
    constructor
    · rfl
    · rw [maskIn_nil, labIn_nil, scan_quote_skip hne hup, scanL_quote_skip hne hup,
        scan_allfalse]
  | succ n ih =>
    intro tok hne hup l buf p hl
    constructor
    · cases l with
      | nil => rfl
      | cons c r =>
        by_cases hc : c = '\''
        · subst hc
          rw [maskAux_quote, labOut_quote]
          exact (ih tok hne hup r [] p (Nat.le_of_succ_le_succ hl)).2
        · rw [maskAux_other c r hc, labOut_other c r hc]
          show ((!p && hereMatch tok (c :: maskAux r)) || wwScan tok (isWordC c) (maskAux r)) =
            ((!p && hereMatchL tok ((c, false) :: labOut r)) || wwScanL tok (isWordC c) (labOut r))
          rw [(ih tok hne hup r [] (isWordC c) (Nat.le_of_succ_le_succ hl)).1]
          cases tok with
          | nil => exact absurd rfl hne
          | cons t ts =>
            have hts : ∀ x ∈ ts, x.isUpper = true := fun x hx =>
              hup x (List.mem_cons_of_mem _ hx)
            have hhm : hereMatch (t :: ts) (c :: maskAux r) =
                hereMatchL (t :: ts) ((c, false) :: labOut r) := by
              show (decide (c.toUpper = t) && hereMatch ts (maskAux r)) =
                ((!false && decide (c.toUpper = t)) && hereMatchL ts (labOut r))
              rw [(hm_bridge n ts r [] (Nat.le_of_succ_le_succ hl) hts).1]
              simp
            rw [hhm]
    · cases l with
      | nil =>
        rw [maskIn_nil, labIn_nil, scan_quote_skip hne hup, scanL_quote_skip hne hup,
          scan_allfalse]
      | cons c r =>
        by_cases hc : c = '\''
        · subst hc
          rw [maskIn_quote, labIn_quote, scan_quote_skip hne hup, scan_quote_skip hne hup,
            List.cons_append, scanL_quote_skip hne hup, scan_inside_skip hne hup]
          exact (ih tok hne hup r [] false (Nat.le_of_succ_le_succ hl)).1
        · rw [maskIn_other c r _ hc, labIn_other c r _ hc]
          exact (ih tok hne hup r (c :: buf) p (Nat.le_of_succ_le_succ hl)).2

theorem findTok_cons_true (c : Char) (r : List Char) :
    findTok true (c :: r) = findTok (isWordC c) r := rfl

theorem findTok_cons_false (c : Char) (r : List Char) :
    findTok false (c :: r) =
      match FORBIDDEN.find? (fun t => hereMatch t (c :: r)) with
      | some t => some t
      | none => findTok (isWordC c) r := rfl

theorem wwScan_cons (tok : List Char) (p : Bool) (c : Char) (r : List Char) :
    wwScan tok p (c :: r) = ((!p && hereMatch tok (c :: r)) || wwScan tok (isWordC c) r) := rfl

theorem findTok_some : ∀ (l : List Char) (p : Bool) (t : List Char),
    findTok p l = some t → t ∈ FORBIDDEN ∧ wwScan t p l = true := by
  intro l
  induction l with
  | nil => intro p t h; exact absurd h (by cases p <;> exact Option.noConfusion)
  | cons c r ih =>
    intro p t h
    cases p with
    | true =>
      rw [findTok_cons_true] at h
      obtain ⟨hm, hs⟩ := ih (isWordC c) t h
      refine ⟨hm, ?_⟩
      rw [wwScan_cons, hs]
      simp
    | false =>
      rw [findTok_cons_false] at h
      cases hfind : FORBIDDEN.find? (fun t2 => hereMatch t2 (c :: r)) with
      | some t2 =>
        rw [hfind] at h
        have ht2 : t2 = t := Option.some.inj h
        subst ht2
        refine ⟨List.mem_of_find?_eq_some hfind, ?_⟩
        rw [wwScan_cons, List.find?_some hfind]
        simp
      | none =>
        rw [hfind] at h
        obtain ⟨hm, hs⟩ := ih (isWordC c) t h
        refine ⟨hm, ?_⟩
        rw [wwScan_cons, hs]
        simp

theorem findTok_none : ∀ (l : List Char) (p : Bool),
    findTok p l = none → ∀ t ∈ FORBIDDEN, wwScan t p l = false := by
  intro l
  induction l with
  | nil => intro p _ t _; rfl
  | cons c r ih =>
    intro p h t hm
    cases p with
    | true =>
      rw [findTok_cons_true] at h
      rw [wwScan_cons, ih (isWordC c) h t hm]
      simp
    | false =>
      rw [findTok_cons_false] at h
      cases hfind : FORBIDDEN.find? (fun t2 => hereMatch t2 (c :: r)) with
      | some t2 => rw [hfind] at h; exact absurd h Option.noConfusion
      | none =>
        rw [hfind] at h
        have hnm : hereMatch t (c :: r) = false := by
          have := List.find?_eq_none.mp hfind t hm
          revert this
          cases hereMatch t (c :: r) <;> simp
        rw [wwScan_cons, hnm, ih (isWordC c) h t hm]
        simp

/-- C2 (counterexample): the query `SELECT 'DROP''` is non-empty, trimmed
begins with SELECT, and `validate_query` accepts it, yet under the claim's
convention (literals are text enclosed in single quotes with doubled-quote
escapes, so the `DROP` after this unterminated opening quote is not inside
a literal) the keyword `DROP` occurs as a whole word outside every literal:
the naive `re.sub` masking pairs the second quote as a closing delimiter
instead of honouring the `''` escape, so the filter fails to trip. -/
theorem c2_counterexample :
    ("SELECT 'DROP''".toList ≠ ([] : List Char))
    ∧ selectPrefix (("SELECT 'DROP''".toList).dropWhile pySpace) = true
    ∧ validateQuery ("SELECT 'DROP''".toList) [] false = Except.ok ()
    ∧ forbiddenOutsideSql (("SELECT 'DROP''".toList).dropWhile pySpace) = true :=
  ⟨by decide, rfl, rfl, rfl⟩

/-- C2 (amended): for every non-empty query whose trimmed text begins with
SELECT, `validate_query` raises the forbidden-token error if and only if a
forbidden keyword occurs as a whole word, case-insensitively, outside
string literals under the left-to-right quote-pairing convention that the
`re.sub` masking actually implements (each complete `'...'` span is a
literal; a doubled quote reads as two adjacent delimiters, not an escape);
moreover any token named by the error is a forbidden keyword occurring
that way. -/
theorem c2_amended (q : List Char) (avail : List (List Char)) (strict : Bool)
    (hq : q ≠ []) (hsel : selectPrefix (q.dropWhile pySpace) = true) :
    ((∃ t, validateQuery q avail strict = Except.error (VError.forbiddenToken t)) ↔
      forbiddenOutsidePair (q.dropWhile pySpace) = true)
    ∧ ∀ t, validateQuery q avail strict = Except.error (VError.forbiddenToken t) →
        t ∈ FORBIDDEN ∧ wwScanL t false (labOut (q.dropWhile pySpace)) = true := by
  cases hf : findTok false (maskAux (q.dropWhile pySpace)) with
  | some t =>
    have hval : validateQuery q avail strict = Except.error (VError.forbiddenToken t) := by
      unfold validateQuery
      rw [if_neg hq]
      simp only [hsel, Bool.not_true, Bool.false_eq_true, if_false]
      rw [hf]
    obtain ⟨hmem, hscan⟩ := findTok_some _ _ _ hf
    obtain ⟨hne, hup⟩ := forbidden_ok t hmem
    have hb := (scan_bridge ((q.dropWhile pySpace).length) t hne hup
      (q.dropWhile pySpace) [] false le_rfl).1
    have hL : wwScanL t false (labOut (q.dropWhile pySpace)) = true := by
      rw [← hb]; exact hscan
    refine ⟨⟨fun _ => ?_, fun _ => ⟨t, hval⟩⟩, ?_⟩
    · simp only [forbiddenOutsidePair, List.any_eq_true]
      exact ⟨t, hmem, hL⟩
    · intro t2 ht2
      rw [hval] at ht2
      have h3 : VError.forbiddenToken t = VError.forbiddenToken t2 := by
        injection ht2
      have h4 : t = t2 := by injection h3
      subst h4
      exact ⟨hmem, hL⟩
  | none =>
    have hval : validateQuery q avail strict =
        (if (refsAux q = [] && strict) = true then Except.error VError.noPlaceholders
         else match (refsAux q).find? (fun r => !(avail.contains r)) with
           | some r => Except.error (VError.unknownSheet r)
           | none => Except.ok ()) := by
      unfold validateQuery
      rw [if_neg hq]
      simp only [hsel, Bool.not_true, Bool.false_eq_true, if_false]
      rw [hf]
    have hnone := findTok_none _ _ hf
    constructor
    · constructor
      · rintro ⟨t, ht⟩
        rw [hval] at ht
        exfalso
        split at ht
        · simp at ht
        · split at ht <;> simp at ht
      · intro hout
        exfalso
        simp only [forbiddenOutsidePair, List.any_eq_true] at hout
        obtain ⟨t, hmem, hscan⟩ := hout
        obtain ⟨hne, hup⟩ := forbidden_ok t hmem
        have hb := (scan_bridge ((q.dropWhile pySpace).length) t hne hup
          (q.dropWhile pySpace) [] false le_rfl).1
        rw [← hb, hnone t hmem] at hscan
        exact Bool.noConfusion hscan
    · intro t ht
      rw [hval] at ht
      exfalso
      split at ht
      · simp at ht
      · split at ht <;> simp at ht

theorem c2_amended_witness :
    ((∃ t, validateQuery ("SELECT DROP".toList) [] false =
        Except.error (VError.forbiddenToken t)) ↔
      forbiddenOutsidePair (("SELECT DROP".toList).dropWhile pySpace) = true)
    ∧ ∀ t, validateQuery ("SELECT DROP".toList) [] false =
          Except.error (VError.forbiddenToken t) →
        t ∈ FORBIDDEN ∧
          wwScanL t false (labOut (("SELECT DROP".toList).dropWhile pySpace)) = true :=
  c2_amended ("SELECT DROP".toList) [] false (by decide) (by decide)
